import Mathlib

/-!
Verification of the crate publish orchestrator (`scripts/publish.py`).

The script builds a dependency graph of workspace crates, topologically sorts
it with Python's `graphlib.TopologicalSorter`, and publishes crates in order,
skipping crates whose target version is already on the registry.

Part 1 embeds the graph construction of `Publisher.create_publish_order`
together with the behavior of CPython's `graphlib.TopologicalSorter` (the
language-provided library the script delegates the ordering to): node
bookkeeping of `add`, the ready-list initialisation of `prepare`, the
depth-first cycle search `_find_cycle`, and the Kahn loop that
`static_order` runs via `get_ready`/`done`.

Part 2 embeds the orchestration logic of the `Publisher` class:
`is_crate_already_published`, `publish_crate`, `publish`, and the process
exit behavior of the `main` entry point.
-/

namespace PublishScript

/-- Node bookkeeping of `graphlib.TopologicalSorter._node2info`.
`npredecessors` is the count of not-yet-done predecessors (Python int);
`successors` is the list of nodes that depend on this node, in the order
the `add` calls appended them. The `_NODE_OUT`/`_NODE_DONE` sentinel marks
of CPython are omitted: within `static_order` a node is decremented past
zero at most down the run and never re-reaches zero, so the marks never
change the produced order (they only guard misuse of the incremental API). -/
structure NodeInfo where
  npredecessors : Int
  successors : List String
deriving Repr, DecidableEq

/-- The `_node2info` dict: association list in insertion order
(Python dicts iterate in insertion order). -/
abbrev N2I := List (String × NodeInfo)

/-- Lookup in the `_node2info` dict. -/
def lookupInfo (l : N2I) (k : String) : Option NodeInfo :=
  (l.find? (fun p => p.1 == k)).map Prod.snd

/-- Lookup with the fresh-node default `_NodeInfo(node)` (0 predecessors,
no successors), as `_get_nodeinfo` creates it. -/
def infoOf (l : N2I) (k : String) : NodeInfo :=
  (lookupInfo l k).getD ⟨0, []⟩

/-- Does the dict already hold a key? -/
def hasKey (l : N2I) (k : String) : Bool :=
  l.any (fun p => p.1 == k)

/-- The `_get_nodeinfo` allocation step: insert a fresh node record if the
key is absent (Python dict insertion appends at the end). -/
def ensureKey (l : N2I) (k : String) : N2I :=
  if hasKey l k then l else l ++ [(k, ⟨0, []⟩)]

/-- Update the record stored under a key, leaving other keys alone. -/
def modifyKey (l : N2I) (k : String) (f : NodeInfo → NodeInfo) : N2I :=
  l.map (fun p => if p.1 == k then (p.1, f p.2) else p)

/-- One predecessor registration of `TopologicalSorter.add`: ensure the
predecessor's record exists and append the dependent node to its
successor list. -/
def addPred (node : String) (l : N2I) (pred : String) : N2I :=
  modifyKey (ensureKey l pred) pred
    (fun i => ⟨i.npredecessors, i.successors ++ [node]⟩)

/-- `TopologicalSorter.add(node, *predecessors)`: create the node's record,
bump its predecessor count by the number of predecessors passed, then
register every predecessor. -/
def addCrate (l : N2I) (node : String) (preds : List String) : N2I :=
  let l := ensureKey l node
  let l := modifyKey l node
    (fun i => ⟨i.npredecessors + preds.length, i.successors⟩)
  preds.foldl (addPred node) l

/-- The graph-construction loop of `Publisher.create_publish_order`:
`for crate in self.crates: topological_sorter.add(crate.name, *crate.dependencies)`. -/
def buildSorter (crates : List (String × List String)) : N2I :=
  crates.foldl (fun l c => addCrate l c.1 c.2) []

/-- The node keys in insertion order (iteration order of the dict). -/
def keysOf (l : N2I) : List String := l.map Prod.fst

/-- Successor list of a node. -/
def succsOf (l : N2I) (x : String) : List String := (infoOf l x).successors

/-- Predecessor count of a node. -/
def npredOf (l : N2I) (x : String) : Int := (infoOf l x).npredecessors

/-! ### The cycle search `TopologicalSorter._find_cycle`

CPython's `_find_cycle` runs an iterative depth-first search with an
explicit node stack, a parallel stack of successor iterators, a `seen`
set and the `node2stacki` index of the current stack.  `dfsLoop` below is
that loop verbatim: `rstack` is the source's `stack` stored top-first (so
the source's `stack` is `rstack.reverse`), `frames` is `itstack` (each
frame holds the successors not yet drawn from that iterator), and
membership of `rstack` is the source's `node in node2stacki` test.  The
`fin` component is ghost instrumentation recording nodes in the order
their frames are popped (the source's `del node2stacki[stack.pop()]`);
no branch reads it. -/

/-- The value `stack[node2stacki[node]:] + [node]` the source returns when
it finds `node` on the current stack. -/
def popCycle (rstack : List String) (w : String) : List String :=
  (rstack.reverse.dropWhile (fun v => v != w)) ++ [w]

/-- One root's DFS loop of `_find_cycle`.  Returns the detected cycle (if
any), the final `seen` set and the ghost finish order.  The fuel only
bounds the recursion; `dfsFuel` below always suffices (each step strictly
decreases the measure `dfsMeasure`). -/
def dfsLoop (succs : String → List String) :
    Nat → List String → List (List String) → List String → List String →
    Option (List String) × List String × List String
  | 0, _, _, seen, fin => (none, seen, fin)
  | _ + 1, [], _, seen, fin => (none, seen, fin)
  | _ + 1, _, [], seen, fin => (none, seen, fin)
  | fuel + 1, v :: vs, ws :: fss, seen, fin =>
    match ws with
    | [] =>
      -- StopIteration: pop the frame, record the node as finished
      dfsLoop succs fuel vs fss seen (fin ++ [v])
    | w :: ws' =>
      if w ∈ seen then
        if w ∈ v :: vs then
          (some (popCycle (v :: vs) w), seen, fin)
        else
          dfsLoop succs fuel (v :: vs) (ws' :: fss) seen fin
      else
        dfsLoop succs fuel (w :: v :: vs) (succs w :: ws' :: fss) (w :: seen) fin

/-- Fuel bound for `dfsLoop`: one unit per frame-pop plus one per successor
occurrence, over every node of the dict. -/
def dfsFuel (l : N2I) : Nat :=
  l.foldl (fun n p => n + p.2.successors.length + 1) 0 + 1

/-- The outer `for node in self._node2info` loop of `_find_cycle`: skip
nodes already seen, otherwise run the DFS from that root, threading the
`seen` set (and the ghost finish order) across roots. -/
def findCycleGo (succs : String → List String) (fuel : Nat) :
    List String → List String → List String → Option (List String) :=
  fun roots seen fin =>
    match roots with
    | [] => none
    | k :: ks =>
      if k ∈ seen then findCycleGo succs fuel ks seen fin
      else
        match dfsLoop succs fuel [k] [succs k] (k :: seen) fin with
        | (some c, _, _) => some c
        | (none, seen', fin') => findCycleGo succs fuel ks seen' fin'

/-- `TopologicalSorter._find_cycle`. -/
def findCycle (l : N2I) : Option (List String) :=
  findCycleGo (succsOf l) (dfsFuel l) (keysOf l) [] []

/-! ### The Kahn loop of `static_order`

`static_order` calls `prepare` (initial ready list = nodes with zero
predecessors, in insertion order; raise `CycleError` if `_find_cycle`
finds one) and then loops `get_ready` / `done`.  `done(*group)` iterates
the group's nodes and each node's successors in order, decrementing
predecessor counts and appending nodes that reach zero to the ready
list — i.e. it processes the flattened successor sequence
`group.flatMap succs` one occurrence at a time. -/

/-- Process a flattened sequence of successor occurrences: decrement each
one's predecessor count and append it to the pending ready list exactly
when the count reaches zero (the `done` loop of the source). -/
def doneDec : List String → (String → Int) → List String → (String → Int) × List String
  | [], np, acc => (np, acc)
  | s :: rest, np, acc =>
    let np' := fun x => if x = s then np s - 1 else np x
    if np s - 1 = 0 then doneDec rest np' (acc ++ [s])
    else doneDec rest np' acc

/-- `done(*group)` for one emitted group. -/
def kahnStep (succs : String → List String) (group : List String)
    (np : String → Int) : (String → Int) × List String :=
  doneDec (group.flatMap succs) np []

/-- The `while self.is_active(): node_group = self.get_ready(); yield from
node_group; self.done(*node_group)` loop.  One fuel unit per group; the
fuel `l.length + 1` used by `staticOrder` always suffices because every
group is nonempty and groups are pairwise disjoint subsets of the keys. -/
def kahnRun (succs : String → List String) :
    Nat → (String → Int) → List String → Option (List String)
  | 0, _, _ => none
  | _ + 1, _, [] => some []
  | fuel + 1, np, r :: rs =>
    let st := kahnStep succs (r :: rs) np
    (kahnRun succs fuel st.1 st.2).map (fun out => r :: rs ++ out)

/-- The initial ready list computed by `prepare`:
`[i.node for i in self._node2info.values() if i.npredecessors == 0]`. -/
def readyInit (l : N2I) : List String :=
  (l.filter (fun p => p.2.npredecessors == 0)).map Prod.fst

/-- `TopologicalSorter.static_order` on a fully-built sorter: raise
`CycleError` (carrying the detected cycle) if `_find_cycle` finds one,
otherwise emit the Kahn order. -/
def staticOrder (l : N2I) : Except (List String) (List String) :=
  match findCycle l with
  | some c => .error c
  | none => .ok ((kahnRun (succsOf l) (l.length + 1) (npredOf l) (readyInit l)).getD [])

/-- `Publisher.create_publish_order`: feed every crate with its local
dependencies into the sorter and materialise `static_order`. -/
def createPublishOrder (crates : List (String × List String)) :
    Except (List String) (List String) :=
  staticOrder (buildSorter crates)


/-! ## Part 2: the `Publisher` orchestration

The registry client (`cargo search` / `cargo publish`) is the external
collaborator of the spec; it is modelled by an oracle giving, per crate
name, the latest published version visible to `cargo search`
(`get_latest_version_for_crate`) and whether `cargo publish` succeeds.
File reads of crate manifests are modelled by the `version` field of the
`Crate` records (the manifest does not change during a run).  Console
printing is not modelled; the `verbose` flag only affects printing and is
dropped. -/

/-- A workspace crate as the script sees it: manifest name, local
workspace dependencies, manifest version and directory. -/
structure Crate where
  name : String
  dependencies : List String
  version : String
  path : String
deriving Repr, DecidableEq

/-- The registry collaborator: `latest` is what the `cargo search` regex
scrape yields (`None` when no line matches), `publishOk` tells whether the
`cargo publish` subprocess exits with status 0. -/
structure Oracle where
  latest : String → Option String
  publishOk : String → Bool

/-- Python exceptions the orchestrator can see: a `CalledProcessError`
from `subprocess.run(..., check=True)` or a `KeyError` from
`self.crate_index[crate_name]`. -/
inductive PyExn where
  | calledProcessError (cmd : String)
  | keyError (key : String)
deriving Repr, DecidableEq

/-- Observable side effects of a run, in order: directory changes,
registry queries (`cargo search`), registry publishes (`cargo publish`,
with its feature flags and dry-run mode) and the propagation-delay sleep. -/
inductive Ev where
  | chdirEv (dir : String)
  | searchEv (crate : String)
  | publishEv (crate : String) (features : Option String) (dryRun : Bool)
  | sleepEv (secs : Nat)
deriving Repr, DecidableEq

/-- The current working directory after a list of events is performed,
starting from `cwd0`: only `os.chdir` events move it. -/
def finalCwd (cwd0 : String) (evs : List Ev) : String :=
  evs.foldl (fun c e => match e with | .chdirEv d => d | _ => c) cwd0

/-- The `SETTINGS["publish_features"]` table: extra `--features` flags
passed when publishing specific crates. -/
def featuresFor (name : String) : Option String :=
  if name = "wasmer-cli" then some "default,cranelift"
  else if name = "wasmer-wasix" then some "sys,wasmer/sys-default"
  else if name = "wasmer-wasix-types" then some "wasmer/sys-default"
  else if name = "wasmer-wast" then some "wasmer/sys-default"
  else if name = "wai-bindgen-wasmer" then some "sys"
  else if name = "wasmer-cache" then some "wasmer/sys-default"
  else none

/-- The state `Publisher.__init__` leaves behind: flags, the resolved
target version, the crate set, the computed publish order and
`starting_dir` (the working directory recorded at construction). -/
structure Publisher where
  dry_run : Bool
  version : String
  crates : List Crate
  publish_order : List String
  starting_dir : String
deriving Repr, DecidableEq

/-- `Publisher.__init__`: resolve the version (the `--version` override or
the workspace manifest version), build the dependency graph and compute
the publish order — `CycleError` from `static_order` escapes the
constructor — then record the working directory. -/
def mkPublisher (versionArg : Option String) (workspaceVersion : String)
    (crates : List Crate) (cwd : String) (dryRun : Bool) :
    Except (List String) Publisher :=
  let version := versionArg.getD workspaceVersion
  match createPublishOrder (crates.map (fun c => (c.name, c.dependencies))) with
  | .error c => .error c
  | .ok order =>
    .ok ⟨dryRun, version, crates, order, cwd⟩

/-- `Publisher.is_crate_already_published`: scrape the latest registry
version; no match means not published; a match equal to the publisher's
target version means published; otherwise re-read the crate's manifest
and compare the crate's own version (the `crate_version is None` branch
of the source is unreachable here because a manifest always carries a
version string).  The `self.crate_index[crate_name]` lookup raises
`KeyError` when the name is not a workspace crate. -/
def isCrateAlreadyPublishedE (pub : Publisher) (oracle : Oracle)
    (name : String) : Except PyExn Bool :=
  match oracle.latest name with
  | none => .ok false
  | some found =>
    if pub.version = found then .ok true
    else
      match pub.crates.find? (fun c => c.name == name) with
      | none => .error (.keyError name)
      | some crate => .ok (crate.version == found)

/-- `Publisher.publish_crate`: inside `try`, look the crate up (a missing
name raises `KeyError`), change into its directory and run
`cargo publish` (with `--dry-run` and the crate's extra features as
applicable; a failing subprocess raises `CalledProcessError`); the broad
`except` captures any exception as the returned status; the `finally`
block changes back to `starting_dir` in every case. -/
def publishCrate (pub : Publisher) (oracle : Oracle) (name : String) :
    Option PyExn × List Ev :=
  let attempt : Option PyExn × List Ev :=
    match pub.crates.find? (fun c => c.name == name) with
    | none => (some (.keyError name), [])
    | some crate =>
      let evs := [Ev.chdirEv crate.path,
                  Ev.publishEv name (featuresFor name) pub.dry_run]
      if oracle.publishOk name then (none, evs)
      else (some (.calledProcessError "cargo publish"), evs)
  (attempt.1, attempt.2 ++ [Ev.chdirEv pub.starting_dir])

/-- The walk of `Publisher.publish` over `publish_order`: per crate, run
the skip check (its `KeyError` propagates out of `publish`, carrying the
events already performed); on skip, `continue` directly to the next crate
with no sleep; otherwise record `publish_crate`'s status under the crate's
name, execute the source's `failures = +1` (an assignment of `+1`, i.e.
`1`, not an increment) when the status is an exception, and sleep 16
seconds unless in dry-run mode. -/
def publishGo (pub : Publisher) (oracle : Oracle) :
    List String → Nat → List (String × Option PyExn) → List Ev →
    List Ev × Except PyExn (Nat × List (String × Option PyExn))
  | [], failures, status, evs => (evs, .ok (failures, status))
  | name :: rest, failures, status, evs =>
    let evs := evs ++ [Ev.searchEv name]
    match isCrateAlreadyPublishedE pub oracle name with
    | .error e => (evs, .error e)
    | .ok true => publishGo pub oracle rest failures status evs
    | .ok false =>
      let r := publishCrate pub oracle name
      let status := status ++ [(name, r.1)]
      let failures := if r.1.isSome then 1 else failures
      let evs := evs ++ r.2
      let evs := if pub.dry_run then evs else evs ++ [Ev.sleepEv 16]
      publishGo pub oracle rest failures status evs

/-- `Publisher.publish`: walk the whole order and return the `failures`
counter (the summary printed at the end reports this counter and the
entries of the `status` dict, which the model returns alongside). -/
def publishRun (pub : Publisher) (oracle : Oracle) :
    List Ev × Except PyExn (Nat × List (String × Option PyExn)) :=
  publishGo pub oracle pub.publish_order 0 [] []

/-- The value `publish` actually hands its caller (`return failures`, the
last line of the walk): only the failure counter — the `status` dict is a
local variable consulted by the printed summary and then dropped. -/
def publishReturn (pub : Publisher) (oracle : Oracle) : Except PyExn Nat :=
  (publishRun pub oracle).2.map Prod.fst

/-- What can abort a run: the `CycleError` escaping the constructor, or a
Python exception escaping `publish` itself. -/
inductive ScriptErr where
  | cycleError (cycle : List String)
  | pyExn (e : PyExn)
deriving Repr, DecidableEq

/-- The `publish` subcommand of `main`: construct the `Publisher` (a
`CycleError` aborts before any registry interaction — the constructor
performs none) and run `publish`, returning the failure counter. -/
def runScript (versionArg : Option String) (workspaceVersion : String)
    (crates : List Crate) (cwd : String) (oracle : Oracle) (dryRun : Bool) :
    List Ev × Except ScriptErr (Nat × List (String × Option PyExn)) :=
  match mkPublisher versionArg workspaceVersion crates cwd dryRun with
  | .error c => ([], .error (.cycleError c))
  | .ok pub =>
    let r := publishRun pub oracle
    (r.1, r.2.mapError .pyExn)

/-- The process exit code of `python3 scripts/publish.py publish ...`:
the `if __name__ == "__main__": main()` line calls `main()` and discards
its return value, so a run that raises no exception exits 0 whatever
`main` returned, while an uncaught exception makes the interpreter exit
with status 1. -/
def scriptExitCode (versionArg : Option String) (workspaceVersion : String)
    (crates : List Crate) (cwd : String) (oracle : Oracle) (dryRun : Bool) :
    Nat :=
  match (runScript versionArg workspaceVersion crates cwd oracle dryRun).2 with
  | .error _ => 1
  | .ok _ => 0

/-- Number of entries of the status dict recording a failure (`Failed`
outcomes) — what the spec's summary is supposed to report. -/
def failedCount (status : List (String × Option PyExn)) : Nat :=
  (status.filter (fun p => p.2.isSome)).length


/-! ## Spec-side notions

The input dependency graph, stated over the raw crate list exactly as the
spec speaks about it: nodes are names, an edge `(A, B)` means `A` depends
on `B`. -/

/-- `DepEdge cs a b`: crate `a` declares `b` among its local dependencies. -/
def DepEdge (cs : List (String × List String)) (a b : String) : Prop :=
  ∃ p ∈ cs, p.1 = a ∧ b ∈ p.2

/-- An acyclic input graph: no name depends, transitively, on itself. -/
def Acyclic (cs : List (String × List String)) : Prop :=
  ∀ a, ¬ Relation.TransGen (DepEdge cs) a a

/-- The dependency-graph view of a crate list. -/
def graphOf (crates : List Crate) : List (String × List String) :=
  crates.map (fun c => (c.name, c.dependencies))

/-- A list of names tracing a dependency cycle of the input: at least one
edge, closed (first = last), and each consecutive pair `a, b` is an edge
`b depends on a` (the orientation `_find_cycle` reports: it walks
successor links, i.e. from a dependency to its dependents). -/
def IsDepCycle (cs : List (String × List String)) (c : List String) : Prop :=
  2 ≤ c.length ∧ c.head? = c.getLast? ∧ c.Chain' (fun a b => DepEdge cs b a)


/-! ## Spec-level characterisations of the built sorter

Descriptions of what the build loop produces, used to state and prove the
graph-level claims: the declared dependency list of a name, the
predecessor count and successor list accumulated by `add`, topological
orderedness, and the invariants of the Kahn loop and of the cycle-search
DFS. -/

/-- The declared dependency list of a name (first matching crate entry;
empty for names that are not crates). -/
def depsOf (cs : List (String × List String)) (x : String) : List String :=
  ((cs.find? (fun p => p.1 == x)).map Prod.snd).getD []

/-- Total number of predecessor registrations the build loop performs for
a name: one per dependency of each crate entry carrying that name. -/
def npredSpec (cs : List (String × List String)) (x : String) : Nat :=
  (cs.map (fun p => if p.1 = x then p.2.length else 0)).sum

/-- The successor list the build loop accumulates for a name `x`: for each
crate entry `(a, ds)` in order, one copy of `a` per occurrence of `x`
in `ds`. -/
def succsSpec (cs : List (String × List String)) (x : String) : List String :=
  cs.flatMap (fun p => List.replicate (p.2.count x) p.1)

/-- The dependencies of `x` not yet emitted by the Kahn loop. -/
def pendingDeps (cs : List (String × List String)) (emitted : List String)
    (x : String) : List String :=
  (depsOf cs x).filter (fun b => !(emitted.contains b))

/-- A list of names is topologically ordered for the input graph when
every element's declared dependencies occur strictly earlier in it. -/
def TopoOrdered (cs : List (String × List String)) (l : List String) : Prop :=
  ∀ i (h : i < l.length), ∀ b ∈ depsOf cs (l.get ⟨i, h⟩), b ∈ l.take i

/-- Invariant of the Kahn loop of `static_order` at a group boundary:
`emitted` is the output so far, `ready` the pending ready list, `np` the
current predecessor counts. -/
structure KahnInv (cs : List (String × List String))
    (emitted ready : List String) (np : String → Int) : Prop where
  em_nodup : emitted.Nodup
  rd_nodup : ready.Nodup
  disj : ∀ x ∈ ready, x ∉ emitted
  em_keys : ∀ x ∈ emitted, x ∈ keysOf (buildSorter cs)
  rd_keys : ∀ x ∈ ready, x ∈ keysOf (buildSorter cs)
  np_eq : ∀ x, np x = ((pendingDeps cs emitted x).length : Int)
  rd_deps : ∀ x ∈ ready, ∀ b ∈ depsOf cs x, b ∈ emitted
  complete : ∀ x ∈ keysOf (buildSorter cs), x ∉ emitted →
    (∀ b ∈ depsOf cs x, b ∈ emitted) → x ∈ ready
  ordered : TopoOrdered cs emitted

/-- Potential of the not-yet-seen nodes: one unit per node plus one per
successor occurrence. -/
def unseenPot (succs : String → List String) (keys seen : List String) : Nat :=
  ((keys.filter (fun k => !(seen.contains k))).map
    (fun k => (succs k).length + 1)).sum

/-- Termination measure of the DFS loop: pending successor occurrences,
plus open frames, plus the potential of the unseen nodes; every `dfsLoop`
step strictly decreases it. -/
def dfsMeasure (succs : String → List String) (keys : List String)
    (frames : List (List String)) (seen : List String) : Nat :=
  (frames.map List.length).sum + frames.length + unseenPot succs keys seen

/-- A closed nonempty walk along successor links: at least one edge,
first node equal to last, consecutive nodes linked dependency-to-dependent. -/
def SuccClosedChain (succs : String → List String) (c : List String) : Prop :=
  2 ≤ c.length ∧ c.head? = c.getLast? ∧ List.Chain' (fun a b => b ∈ succs a) c

/-- Invariant of one root's DFS (`dfsLoop`): the stack is a duplicate-free
chain of successor links within `seen`; each frame is the unprocessed
suffix of its node's successor list, and every already-processed successor
is seen and off the stack from that frame down; `seen` splits into
finished nodes and stacked nodes; and the finished list is closed under
successors, each pointing strictly earlier in finish order. -/
structure DfsInv (succs : String → List String) (keys : List String)
    (rstack : List String) (frames : List (List String))
    (seen fin : List String) : Prop where
  len_eq : rstack.length = frames.length
  stack_nodup : rstack.Nodup
  stack_seen : ∀ x ∈ rstack, x ∈ seen
  seen_keys : ∀ x ∈ seen, x ∈ keys
  chain : List.Chain' (fun a b => a ∈ succs b) rstack
  frames_spec : ∀ i (h1 : i < rstack.length) (h2 : i < frames.length),
    ∃ pre, succs (rstack.get ⟨i, h1⟩) = pre ++ frames.get ⟨i, h2⟩ ∧
      ∀ w ∈ pre, w ∈ seen ∧ w ∉ rstack.drop i
  seen_iff : ∀ x, x ∈ seen ↔ x ∈ fin ∨ x ∈ rstack
  fin_nodup : fin.Nodup
  fin_fresh : ∀ x ∈ fin, x ∉ rstack
  fin_good : ∀ i (h : i < fin.length), ∀ w ∈ succs (fin.get ⟨i, h⟩),
    w ∈ fin.take i

/-- Invariant threaded across the DFS roots of `_find_cycle` when no cycle
has been found yet: the seen set is exactly the finished list, which is
duplicate-free, within the keys, and successor-closed pointing backwards
in finish order. -/
structure FinInv (succs : String → List String) (keys : List String)
    (seen fin : List String) : Prop where
  seen_iff : ∀ x, x ∈ seen ↔ x ∈ fin
  nodup : fin.Nodup
  sub_keys : ∀ x ∈ fin, x ∈ keys
  good : ∀ i (h : i < fin.length), ∀ w ∈ succs (fin.get ⟨i, h⟩), w ∈ fin.take i

/-! ## Helper lemmas -/

/-- `publish_crate` never sleeps: its observable events are directory
changes and the `cargo publish` invocation only. -/
theorem sleepEv_notMem_publishCrate (pub : Publisher) (oracle : Oracle)
    (name : String) (k : Nat) : Ev.sleepEv k ∉ (publishCrate pub oracle name).2 := by
  unfold publishCrate
  cases hf : pub.crates.find? (fun c => c.name == name) with
  | none => simp
  | some crate => cases hp : oracle.publishOk name <;> simp [hp]

/-! ## Claim theorems -/

/-- Claim C2, counterexample: the topological sorter does not emit the
lexicographically smallest ready node first.  With the two independent
crates fed to the sorter in the order `b`, `a`, both are ready at once and
the computed order is `["b", "a"]`, even though `"a" < "b"`. -/
theorem c2_tie_break_counterexample :
    createPublishOrder [("b", []), ("a", [])] = .ok ["b", "a"] ∧
    (["b", "a"] : List String) ≠ ["a", "b"] ∧ ("a" : String) < "b" :=
  ⟨rfl, by decide, by rw [String.lt_iff_toList_lt]; decide⟩

/-- Claim C3, counterexample: the error raised on a cyclic input does not
carry the set of all unresolved node names.  On
`{A: deps=[B], B: deps=[A], C: deps=[A]}` no node can be emitted (all
three are unresolved), yet the `CycleError` payload is the detected cycle
path `[A, B, A]`, which does not name `C`. -/
theorem c3_cycle_payload_counterexample :
    createPublishOrder [("A", ["B"]), ("B", ["A"]), ("C", ["A"])] =
      .error ["A", "B", "A"] ∧
    "C" ∉ (["A", "B", "A"] : List String) ∧
    ("C", ["A"]) ∈ [("A", ["B"]), ("B", ["A"]), ("C", ["A"])] :=
  ⟨rfl, by decide, by decide⟩

/-- Claim C4, counterexample: the skip check does not compare the
registry version against the crate's own manifest version only.  Here the
registry reports `2.0.0`, the publisher's target version is `2.0.0`, and
the crate's own manifest version is `1.0.0`: the crate is skipped (its
walk step performs the `cargo search` query and nothing else) although
the registry version differs from the crate's declared version. -/
theorem c4_skip_check_counterexample :
    isCrateAlreadyPublishedE
        ⟨false, "2.0.0", [⟨"a", [], "1.0.0", "/ws/a"⟩], ["a"], "/ws"⟩
        ⟨fun n => if n = "a" then some "2.0.0" else none, fun _ => true⟩
        "a" = .ok true ∧
    ("2.0.0" : String) ≠ "1.0.0" ∧
    publishRun
        ⟨false, "2.0.0", [⟨"a", [], "1.0.0", "/ws/a"⟩], ["a"], "/ws"⟩
        ⟨fun n => if n = "a" then some "2.0.0" else none, fun _ => true⟩
      = ([Ev.searchEv "a"], .ok (0, [])) :=
  ⟨rfl, by decide, rfl⟩

/-- Claim C4, amended: a crate is skipped exactly when the registry
reports a latest version equal to the publisher's target version or to
the crate's own manifest version; and a skipped crate's walk step
performs no `publish()` call (its only event is the search query). -/
theorem c4_skip_iff_target_or_manifest_version (pub : Publisher)
    (oracle : Oracle) (name : String) (crate : Crate)
    (hfind : pub.crates.find? (fun c => c.name == name) = some crate) :
    (isCrateAlreadyPublishedE pub oracle name = .ok true ↔
      ∃ v, oracle.latest name = some v ∧ (v = pub.version ∨ v = crate.version)) ∧
    (∀ rest failures status evs,
      isCrateAlreadyPublishedE pub oracle name = .ok true →
      publishGo pub oracle (name :: rest) failures status evs =
        publishGo pub oracle rest failures status (evs ++ [Ev.searchEv name])) := by
  constructor
  · unfold isCrateAlreadyPublishedE
    cases hl : oracle.latest name with
    | none => simp
    | some v =>
      rw [hfind]
      by_cases hv : pub.version = v
      · simp [hv]
      · simp only [if_neg hv]
        constructor
        · intro hq
          refine ⟨v, rfl, Or.inr ?_⟩
          have := Except.ok.inj hq
          exact (beq_iff_eq.mp this).symm
        · rintro ⟨v', hv', hor⟩
          cases hv'
          rcases hor with h1 | h2
          · exact absurd h1.symm hv
          · rw [h2.symm]
            simp
  · intro rest failures status evs h
    simp only [publishGo, h]

/-- Claim C6: in the walk, the propagation-delay sleep happens after a
crate exactly when the run is live (not dry run) and the crate was not
skipped; a skipped crate continues immediately and a dry run never
sleeps.  (A non-skipped crate sleeps whether its publish succeeded or
failed; "actually published" in the spec means "went through the publish
attempt, as opposed to skipped".) -/
theorem c6_sleep_iff_live_not_skipped (pub : Publisher) (oracle : Oracle)
    (name : String) (b : Bool)
    (h : isCrateAlreadyPublishedE pub oracle name = .ok b) :
    ∀ rest failures status evs, ∃ failures' status' evs',
      publishGo pub oracle (name :: rest) failures status evs =
        publishGo pub oracle rest failures' status' (evs ++ [Ev.searchEv name] ++ evs') ∧
      (Ev.sleepEv 16 ∈ evs' ↔ pub.dry_run = false ∧ b = false) := by
  intro rest failures status evs
  cases b with
  | true =>
    refine ⟨failures, status, [], ?_, by simp⟩
    simp only [publishGo, h, List.append_nil]
  | false =>
    refine ⟨if (publishCrate pub oracle name).1.isSome then 1 else failures,
            status ++ [(name, (publishCrate pub oracle name).1)],
            (publishCrate pub oracle name).2 ++
              (if pub.dry_run then [] else [Ev.sleepEv 16]), ?_, ?_⟩
    · simp only [publishGo, h]
      cases hd : pub.dry_run <;> simp [hd, List.append_assoc]
    · cases hd : pub.dry_run <;>
        simp [hd, sleepEv_notMem_publishCrate]

/-- Claim C6, witness at a concrete live, non-skipped crate. -/
theorem c6_sleep_iff_live_not_skipped_witness :
    isCrateAlreadyPublishedE
        ⟨false, "1.0.0", [⟨"a", [], "1.0.0", "/ws/a"⟩], ["a"], "/ws"⟩
        ⟨fun _ => none, fun _ => true⟩ "a" = .ok false ∧
    (∀ rest failures status evs, ∃ failures' status' evs',
      publishGo ⟨false, "1.0.0", [⟨"a", [], "1.0.0", "/ws/a"⟩], ["a"], "/ws"⟩
          ⟨fun _ => none, fun _ => true⟩ ("a" :: rest) failures status evs =
        publishGo ⟨false, "1.0.0", [⟨"a", [], "1.0.0", "/ws/a"⟩], ["a"], "/ws"⟩
          ⟨fun _ => none, fun _ => true⟩ rest failures' status'
          (evs ++ [Ev.searchEv "a"] ++ evs') ∧
      (Ev.sleepEv 16 ∈ evs' ↔ false = false ∧ false = false)) :=
  ⟨rfl, c6_sleep_iff_live_not_skipped _ _ "a" false rfl⟩

/-- Claim C7: the process exit code.  First conjunct: a live run in which
the only crate's publish fails still exits with code 0, because
`if __name__ == "__main__": main()` discards `main()`'s return value.
Second conjunct: that run did record the failure (failure counter 1,
status `Failed`).  Third conjunct: a cyclic workspace exits nonzero (the
uncaught `CycleError` terminates the interpreter with status 1). -/
theorem c7_exit_code_zero_despite_failure :
    scriptExitCode none "0.1.0" [⟨"a", [], "0.1.0", "/ws/a"⟩] "/ws"
        ⟨fun _ => none, fun _ => false⟩ false = 0 ∧
    (runScript none "0.1.0" [⟨"a", [], "0.1.0", "/ws/a"⟩] "/ws"
        ⟨fun _ => none, fun _ => false⟩ false).2 =
      .ok (1, [("a", some (PyExn.calledProcessError "cargo publish"))]) ∧
    scriptExitCode none "0.1.0"
        [⟨"A", ["B"], "0.1.0", "/ws/A"⟩, ⟨"B", ["A"], "0.1.0", "/ws/B"⟩] "/ws"
        ⟨fun _ => none, fun _ => false⟩ false = 1 :=
  ⟨rfl, rfl, rfl⟩

/-- Claim C8: the failure count in the end-of-run summary is wrong when
more than one crate fails.  With two crates both failing to publish, the
final state records two `Failed` outcomes, but the reported counter is 1:
line 283 of the script executes `failures = +1` (an assignment of the
literal `+1`), not `failures += 1`. -/
theorem c8_failure_count_understated :
    (runScript none "0.1.0"
        [⟨"a", [], "0.1.0", "/ws/a"⟩, ⟨"b", [], "0.1.0", "/ws/b"⟩] "/ws"
        ⟨fun _ => none, fun _ => false⟩ false).2 =
      .ok (1, [("a", some (PyExn.calledProcessError "cargo publish")),
               ("b", some (PyExn.calledProcessError "cargo publish"))]) ∧
    failedCount [("a", some (PyExn.calledProcessError "cargo publish")),
                 ("b", some (PyExn.calledProcessError "cargo publish"))] = 2 ∧
    (1 : Nat) ≠ 2 :=
  ⟨rfl, rfl, by decide⟩

/-- Claim C9: `publish_crate` always restores the working directory.
Whatever the outcome (success, failed subprocess, or even the `KeyError`
path), after the call the current directory is again the directory
recorded at construction time, thanks to the `finally: os.chdir(self.starting_dir)`. -/
theorem c9_cwd_restored (versionArg : Option String) (wsVersion : String)
    (crates : List Crate) (cwd : String) (dryRun : Bool) (pub : Publisher)
    (h : mkPublisher versionArg wsVersion crates cwd dryRun = .ok pub)
    (oracle : Oracle) (name : String) (cwd0 : String) :
    pub.starting_dir = cwd ∧
    finalCwd cwd0 (publishCrate pub oracle name).2 = cwd := by
  have hs : pub.starting_dir = cwd := by
    unfold mkPublisher at h
    split at h
    · exact absurd h (by simp)
    · cases h
      rfl
  refine ⟨hs, ?_⟩
  unfold publishCrate finalCwd
  cases hf : pub.crates.find? (fun c => c.name == name) with
  | none => simp [hs]
  | some crate => cases hp : oracle.publishOk name <;> simp [hp, hs]

/-- Claim C9, witness at a concrete publisher (live mode, failing
subprocess, arbitrary starting directory for the call). -/
theorem c9_cwd_restored_witness :
    mkPublisher none "1.0.0" [⟨"a", [], "1.0.0", "/ws/a"⟩] "/ws" false =
      .ok ⟨false, "1.0.0", [⟨"a", [], "1.0.0", "/ws/a"⟩], ["a"], "/ws"⟩ ∧
    ((⟨false, "1.0.0", [⟨"a", [], "1.0.0", "/ws/a"⟩], ["a"], "/ws"⟩ : Publisher).starting_dir = "/ws" ∧
     finalCwd "/elsewhere"
       (publishCrate ⟨false, "1.0.0", [⟨"a", [], "1.0.0", "/ws/a"⟩], ["a"], "/ws"⟩
         ⟨fun _ => none, fun _ => false⟩ "a").2 = "/ws") :=
  ⟨rfl, c9_cwd_restored none "1.0.0" [⟨"a", [], "1.0.0", "/ws/a"⟩] "/ws" false _ rfl
    ⟨fun _ => none, fun _ => false⟩ "a" "/elsewhere"⟩

/-- Claim C10: when the registry query reports no published version at
all, the skip check answers `false`, and the crate's walk step invokes
`publish_crate` (recording its status under the crate's name) instead of
skipping. -/
theorem c10_unpublished_crate_attempted (pub : Publisher) (oracle : Oracle)
    (name : String) (h : oracle.latest name = none) :
    isCrateAlreadyPublishedE pub oracle name = .ok false ∧
    ∀ rest failures status evs, ∃ failures' evs',
      publishGo pub oracle (name :: rest) failures status evs =
        publishGo pub oracle rest failures'
          (status ++ [(name, (publishCrate pub oracle name).1)]) evs' := by
  have hskip : isCrateAlreadyPublishedE pub oracle name = .ok false := by
    unfold isCrateAlreadyPublishedE
    rw [h]
  refine ⟨hskip, ?_⟩
  intro rest failures status evs
  refine ⟨if (publishCrate pub oracle name).1.isSome then 1 else failures,
          if pub.dry_run then evs ++ [Ev.searchEv name] ++ (publishCrate pub oracle name).2
          else evs ++ [Ev.searchEv name] ++ (publishCrate pub oracle name).2 ++ [Ev.sleepEv 16],
          ?_⟩
  simp only [publishGo, hskip]

/-- Claim C10, witness at a concrete crate absent from the registry. -/
theorem c10_unpublished_crate_attempted_witness :
    ((⟨fun _ => none, fun _ => true⟩ : Oracle).latest "a" = none) ∧
    (isCrateAlreadyPublishedE
        ⟨true, "1.0.0", [⟨"a", [], "1.0.0", "/ws/a"⟩], ["a"], "/ws"⟩
        ⟨fun _ => none, fun _ => true⟩ "a" = .ok false ∧
     ∀ rest failures status evs, ∃ failures' evs',
        publishGo ⟨true, "1.0.0", [⟨"a", [], "1.0.0", "/ws/a"⟩], ["a"], "/ws"⟩
            ⟨fun _ => none, fun _ => true⟩ ("a" :: rest) failures status evs =
          publishGo ⟨true, "1.0.0", [⟨"a", [], "1.0.0", "/ws/a"⟩], ["a"], "/ws"⟩
            ⟨fun _ => none, fun _ => true⟩ rest failures'
            (status ++ [("a", (publishCrate
              ⟨true, "1.0.0", [⟨"a", [], "1.0.0", "/ws/a"⟩], ["a"], "/ws"⟩
              ⟨fun _ => none, fun _ => true⟩ "a").1)]) evs') :=
  ⟨rfl, c10_unpublished_crate_attempted _ _ "a" rfl⟩

/-- Claim C4, amended, witness at a concrete publisher and crate. -/
theorem c4_skip_iff_target_or_manifest_version_witness :
    (([⟨"a", [], "1.0.0", "/ws/a"⟩] : List Crate).find? (fun c => c.name == "a") =
        some ⟨"a", [], "1.0.0", "/ws/a"⟩) ∧
    ((isCrateAlreadyPublishedE
        ⟨false, "2.0.0", [⟨"a", [], "1.0.0", "/ws/a"⟩], ["a"], "/ws"⟩
        ⟨fun _ => some "1.0.0", fun _ => true⟩ "a" = .ok true ↔
      ∃ v, (fun _ => some "1.0.0") "a" = some v ∧
        (v = "2.0.0" ∨ v = "1.0.0")) ∧
     (∀ rest failures status evs,
        isCrateAlreadyPublishedE
          ⟨false, "2.0.0", [⟨"a", [], "1.0.0", "/ws/a"⟩], ["a"], "/ws"⟩
          ⟨fun _ => some "1.0.0", fun _ => true⟩ "a" = .ok true →
        publishGo ⟨false, "2.0.0", [⟨"a", [], "1.0.0", "/ws/a"⟩], ["a"], "/ws"⟩
            ⟨fun _ => some "1.0.0", fun _ => true⟩ ("a" :: rest) failures status evs =
          publishGo ⟨false, "2.0.0", [⟨"a", [], "1.0.0", "/ws/a"⟩], ["a"], "/ws"⟩
            ⟨fun _ => some "1.0.0", fun _ => true⟩ rest failures status
            (evs ++ [Ev.searchEv "a"]))) :=
  ⟨rfl, c4_skip_iff_target_or_manifest_version _ _ "a" ⟨"a", [], "1.0.0", "/ws/a"⟩ rfl⟩


/-- The walk of `publish` runs to completion whenever each crate's skip
check itself resolves (no `KeyError` from a name missing from the crate
index): per crate it appends the search event, and for every non-skipped
crate it records `publish_crate`'s status — exception or success — and
keeps going. -/
theorem publishGo_total_spec (pub : Publisher) (oracle : Oracle) :
    ∀ (names : List String) failures status evs,
    (∀ n ∈ names, ∃ b, isCrateAlreadyPublishedE pub oracle n = .ok b) →
    ∃ evs2 failures2 status2,
      publishGo pub oracle names failures status evs = (evs ++ evs2, .ok (failures2, status2)) ∧
      (∃ tail, status2 = status ++ tail) ∧
      (∀ n ∈ names, Ev.searchEv n ∈ evs2) ∧
      (∀ n ∈ names, isCrateAlreadyPublishedE pub oracle n = .ok false →
        (n, (publishCrate pub oracle n).1) ∈ status2) := by
  intro names
  induction names with
  | nil =>
    intro failures status evs _
    exact ⟨[], failures, status, by simp [publishGo], ⟨[], by simp⟩, by simp, by simp⟩
  | cons n rest ih =>
    intro failures status evs hok
    obtain ⟨b, hb⟩ := hok n (by simp)
    have hrest : ∀ m ∈ rest, ∃ b, isCrateAlreadyPublishedE pub oracle m = .ok b :=
      fun m hm => hok m (by simp [hm])
    cases b with
    | true =>
      obtain ⟨evs2, f2, st2, heq, ⟨tail, htail⟩, hsearch, hrec⟩ :=
        ih failures status (evs ++ [Ev.searchEv n]) hrest
      refine ⟨[Ev.searchEv n] ++ evs2, f2, st2, ?_, ⟨tail, htail⟩, ?_, ?_⟩
      · simp only [publishGo, hb, heq, List.append_assoc]
      · intro m hm
        rcases List.mem_cons.mp hm with rfl | hm
        · simp
        · simp [hsearch m hm]
      · intro m hm hfalse
        rcases List.mem_cons.mp hm with rfl | hm
        · rw [hb] at hfalse
          cases hfalse
        · exact hrec m hm hfalse
    | false =>
      have harg :
          (if pub.dry_run then evs ++ [Ev.searchEv n] ++ (publishCrate pub oracle n).2
           else evs ++ [Ev.searchEv n] ++ (publishCrate pub oracle n).2 ++ [Ev.sleepEv 16]) =
          evs ++ ([Ev.searchEv n] ++ (publishCrate pub oracle n).2 ++
            (if pub.dry_run then [] else [Ev.sleepEv 16])) := by
        cases pub.dry_run <;> simp
      obtain ⟨evs2, f2, st2, heq, ⟨tail, htail⟩, hsearch, hrec⟩ :=
        ih (if (publishCrate pub oracle n).1.isSome then 1 else failures)
          (status ++ [(n, (publishCrate pub oracle n).1)])
          (evs ++ ([Ev.searchEv n] ++ (publishCrate pub oracle n).2 ++
            (if pub.dry_run then [] else [Ev.sleepEv 16]))) hrest
      refine ⟨[Ev.searchEv n] ++ (publishCrate pub oracle n).2 ++
        (if pub.dry_run then [] else [Ev.sleepEv 16]) ++ evs2, f2, st2, ?_, ?_, ?_, ?_⟩
      · simp only [publishGo, hb]
        rw [harg, heq]
        simp [List.append_assoc]
      · exact ⟨[(n, (publishCrate pub oracle n).1)] ++ tail, by simp [htail]⟩
      · intro m hm
        rcases List.mem_cons.mp hm with rfl | hm
        · simp
        · simp [hsearch m hm]
      · intro m hm hfalse
        rcases List.mem_cons.mp hm with rfl | hm
        · rw [htail]
          simp
        · exact hrec m hm hfalse

/-- Claim C5, amended: a single crate's publish failure does not halt the
walk.  Provided each crate's skip-check query resolves (the registry
collaborator is total and every ordered name is a workspace crate),
`publish` returns normally — no exception crosses its boundary — every
crate of the order is processed (its registry query event appears), and
every non-skipped crate's status (failure or success) is recorded in the
walk's internal status dict, which feeds the printed summary; the caller
receives only the failure counter, not the outcome map. -/
theorem c5_failures_recorded_walk_continues (pub : Publisher) (oracle : Oracle)
    (h : ∀ n ∈ pub.publish_order, ∃ b, isCrateAlreadyPublishedE pub oracle n = .ok b) :
    ∃ evs failures status,
      publishRun pub oracle = (evs, .ok (failures, status)) ∧
      publishReturn pub oracle = .ok failures ∧
      (∀ n ∈ pub.publish_order, Ev.searchEv n ∈ evs) ∧
      (∀ n ∈ pub.publish_order, isCrateAlreadyPublishedE pub oracle n = .ok false →
        (n, (publishCrate pub oracle n).1) ∈ status) := by
  obtain ⟨evs2, f2, st2, heq, _, hsearch, hrec⟩ :=
    publishGo_total_spec pub oracle pub.publish_order 0 [] [] h
  have hrun : publishRun pub oracle = (evs2, .ok (f2, st2)) := by simpa using heq
  refine ⟨evs2, f2, st2, hrun, ?_, hsearch, hrec⟩
  unfold publishReturn
  rw [hrun]
  rfl

/-- Claim C5, witness: two crates, the first of which fails to publish;
the walk still processes the second and records the first's failure. -/
theorem c5_failures_recorded_walk_continues_witness :
    (∀ n ∈ (⟨false, "1.0.0",
        [⟨"a", [], "1.0.0", "/ws/a"⟩, ⟨"b", [], "1.0.0", "/ws/b"⟩],
        ["a", "b"], "/ws"⟩ : Publisher).publish_order,
      ∃ b, isCrateAlreadyPublishedE
        ⟨false, "1.0.0",
          [⟨"a", [], "1.0.0", "/ws/a"⟩, ⟨"b", [], "1.0.0", "/ws/b"⟩],
          ["a", "b"], "/ws"⟩
        ⟨fun _ => none, fun n => n == "b"⟩ n = .ok b) ∧
    (∃ evs failures status,
      publishRun
          ⟨false, "1.0.0",
            [⟨"a", [], "1.0.0", "/ws/a"⟩, ⟨"b", [], "1.0.0", "/ws/b"⟩],
            ["a", "b"], "/ws"⟩
          ⟨fun _ => none, fun n => n == "b"⟩ = (evs, .ok (failures, status)) ∧
      publishReturn
          ⟨false, "1.0.0",
            [⟨"a", [], "1.0.0", "/ws/a"⟩, ⟨"b", [], "1.0.0", "/ws/b"⟩],
            ["a", "b"], "/ws"⟩
          ⟨fun _ => none, fun n => n == "b"⟩ = .ok failures ∧
      (∀ n ∈ (⟨false, "1.0.0",
          [⟨"a", [], "1.0.0", "/ws/a"⟩, ⟨"b", [], "1.0.0", "/ws/b"⟩],
          ["a", "b"], "/ws"⟩ : Publisher).publish_order, Ev.searchEv n ∈ evs) ∧
      (∀ n ∈ (⟨false, "1.0.0",
          [⟨"a", [], "1.0.0", "/ws/a"⟩, ⟨"b", [], "1.0.0", "/ws/b"⟩],
          ["a", "b"], "/ws"⟩ : Publisher).publish_order,
        isCrateAlreadyPublishedE
          ⟨false, "1.0.0",
            [⟨"a", [], "1.0.0", "/ws/a"⟩, ⟨"b", [], "1.0.0", "/ws/b"⟩],
            ["a", "b"], "/ws"⟩
          ⟨fun _ => none, fun n => n == "b"⟩ n = .ok false →
        (n, (publishCrate
          ⟨false, "1.0.0",
            [⟨"a", [], "1.0.0", "/ws/a"⟩, ⟨"b", [], "1.0.0", "/ws/b"⟩],
            ["a", "b"], "/ws"⟩
          ⟨fun _ => none, fun n => n == "b"⟩ n).1) ∈ status)) := by
  have h : ∀ n ∈ (["a", "b"] : List String), ∃ b,
      isCrateAlreadyPublishedE
        ⟨false, "1.0.0",
          [⟨"a", [], "1.0.0", "/ws/a"⟩, ⟨"b", [], "1.0.0", "/ws/b"⟩],
          ["a", "b"], "/ws"⟩
        ⟨fun _ => none, fun n => n == "b"⟩ n = .ok b := by
    intro n hn
    exact ⟨false, rfl⟩
  exact ⟨h, c5_failures_recorded_walk_continues _ _ h⟩

/-- Claim C5, counterexample to the returned-outcome-map part: `publish`
returns only the failure counter (`return failures`, its last line), so
the per-crate outcome map never reaches the caller.  A run over a single
failing crate `a` and a run over a single failing crate `b` hand the
caller the same value `1`, although their outcome maps differ
(`{a: CalledProcessError}` versus `{b: CalledProcessError}`). -/
theorem c5_outcome_map_not_returned_counterexample :
    publishReturn ⟨true, "1.0.0", [⟨"a", [], "1.0.0", "/ws/a"⟩], ["a"], "/ws"⟩
        ⟨fun _ => none, fun _ => false⟩ = .ok 1 ∧
    publishReturn ⟨true, "1.0.0", [⟨"b", [], "1.0.0", "/ws/b"⟩], ["b"], "/ws"⟩
        ⟨fun _ => none, fun _ => false⟩ = .ok 1 ∧
    (publishRun ⟨true, "1.0.0", [⟨"a", [], "1.0.0", "/ws/a"⟩], ["a"], "/ws"⟩
        ⟨fun _ => none, fun _ => false⟩).2 =
      .ok (1, [("a", some (.calledProcessError "cargo publish"))]) ∧
    (publishRun ⟨true, "1.0.0", [⟨"b", [], "1.0.0", "/ws/b"⟩], ["b"], "/ws"⟩
        ⟨fun _ => none, fun _ => false⟩).2 =
      .ok (1, [("b", some (.calledProcessError "cargo publish"))]) ∧
    ([("a", some (PyExn.calledProcessError "cargo publish"))] :
        List (String × Option PyExn)) ≠
      [("b", some (.calledProcessError "cargo publish"))] :=
  ⟨rfl, rfl, rfl, rfl, by decide⟩


/-! ## Characterisation of the built sorter -/

/-- Unfolding lemma: lookup on a cons cell. -/
theorem infoOf_cons (k : String) (i : NodeInfo) (l : N2I) (x : String) :
    infoOf ((k, i) :: l) x = if k = x then i else infoOf l x := by
  unfold infoOf lookupInfo
  rw [List.find?_cons]
  by_cases h : k = x
  · simp [h]
  · have hb : (k == x) = false := by simpa using h
    simp [hb, h]

/-- Unfolding lemma: `modifyKey` on a cons cell. -/
theorem modifyKey_cons (k' : String) (i : NodeInfo) (l : N2I) (k : String)
    (f : NodeInfo → NodeInfo) :
    modifyKey ((k', i) :: l) k f =
      (if k' = k then (k', f i) else (k', i)) :: modifyKey l k f := by
  unfold modifyKey
  rw [List.map_cons]
  by_cases h : k' = k
  · simp [h]
  · have hb : (k' == k) = false := by simpa using h
    simp [hb, h]

/-- `hasKey` is membership of the key list. -/
theorem hasKey_iff_mem (l : N2I) (k : String) :
    hasKey l k = true ↔ k ∈ keysOf l := by
  unfold hasKey keysOf
  rw [List.any_eq_true]
  constructor
  · rintro ⟨p, hp, hpk⟩
    exact List.mem_map.mpr ⟨p, hp, eq_of_beq hpk⟩
  · rintro h
    obtain ⟨p, hp, hpk⟩ := List.mem_map.mp h
    exact ⟨p, hp, beq_iff_eq.mpr hpk⟩

/-- Key list after `ensureKey`. -/
theorem keysOf_ensureKey (l : N2I) (k : String) :
    keysOf (ensureKey l k) = if k ∈ keysOf l then keysOf l else keysOf l ++ [k] := by
  unfold ensureKey
  by_cases h : k ∈ keysOf l
  · rw [if_pos ((hasKey_iff_mem l k).mpr h), if_pos h]
  · rw [if_neg (fun hh => h ((hasKey_iff_mem l k).mp hh)), if_neg h]
    simp [keysOf]

/-- Appending a fresh default record does not change any lookup. -/
theorem infoOf_append_default (l : N2I) (k x : String) :
    infoOf (l ++ [(k, ⟨0, []⟩)]) x = infoOf l x := by
  induction l with
  | nil =>
    rw [List.nil_append, infoOf_cons]
    by_cases h : k = x
    · subst h
      simp [infoOf, lookupInfo]
    · simp [h]
  | cons p rest ih =>
    rcases p with ⟨k', i⟩
    rw [List.cons_append, infoOf_cons, infoOf_cons]
    by_cases h : k' = x
    · simp [h]
    · simp only [if_neg h]
      exact ih

/-- `ensureKey` is invisible through `infoOf`: a missing key defaults to
exactly the record `ensureKey` inserts. -/
theorem infoOf_ensureKey (l : N2I) (k x : String) :
    infoOf (ensureKey l k) x = infoOf l x := by
  unfold ensureKey
  split
  · rfl
  · exact infoOf_append_default l k x

/-- Key list after `modifyKey`. -/
theorem keysOf_modifyKey (l : N2I) (k : String) (f : NodeInfo → NodeInfo) :
    keysOf (modifyKey l k f) = keysOf l := by
  induction l with
  | nil => rfl
  | cons p rest ih =>
    rcases p with ⟨k', i⟩
    rw [modifyKey_cons]
    by_cases h : k' = k
    · simp only [if_pos h]
      simp only [keysOf, List.map_cons] at ih ⊢
      rw [ih]
    · simp only [if_neg h]
      simp only [keysOf, List.map_cons] at ih ⊢
      rw [ih]

/-- `modifyKey` at another key. -/
theorem infoOf_modifyKey_ne (l : N2I) (k : String) (f : NodeInfo → NodeInfo)
    (x : String) (hx : x ≠ k) :
    infoOf (modifyKey l k f) x = infoOf l x := by
  induction l with
  | nil => rfl
  | cons p rest ih =>
    rcases p with ⟨k', i⟩
    rw [modifyKey_cons]
    by_cases h : k' = k
    · simp only [if_pos h]
      rw [infoOf_cons, infoOf_cons]
      have hne : k' ≠ x := fun hh => hx (hh ▸ h)
      simp only [if_neg hne]
      exact ih
    · simp only [if_neg h]
      rw [infoOf_cons, infoOf_cons]
      by_cases h2 : k' = x
      · simp [h2]
      · simp only [if_neg h2]
        exact ih

/-- `modifyKey` at a present key. -/
theorem infoOf_modifyKey_self (l : N2I) (k : String) (f : NodeInfo → NodeInfo)
    (hk : k ∈ keysOf l) :
    infoOf (modifyKey l k f) k = f (infoOf l k) := by
  induction l with
  | nil => cases hk
  | cons p rest ih =>
    rcases p with ⟨k', i⟩
    rw [modifyKey_cons]
    by_cases h : k' = k
    · simp only [if_pos h]
      rw [infoOf_cons, infoOf_cons]
      simp [h]
    · simp only [if_neg h]
      rw [infoOf_cons, infoOf_cons]
      simp only [if_neg h]
      apply ih
      rcases List.mem_cons.mp (show k ∈ k' :: keysOf rest by simpa [keysOf] using hk) with h2 | h2
      · exact absurd h2.symm h
      · exact h2

/-- `addPred` updates only the predecessor's record, appending the
dependent node to its successor list. -/
theorem infoOf_addPred (node : String) (l : N2I) (pred x : String) :
    infoOf (addPred node l pred) x =
      if x = pred then
        ⟨(infoOf l x).npredecessors, (infoOf l x).successors ++ [node]⟩
      else infoOf l x := by
  unfold addPred
  by_cases h : x = pred
  · subst h
    rw [if_pos rfl]
    rw [infoOf_modifyKey_self _ _ _
      (by rw [keysOf_ensureKey]; by_cases hm : x ∈ keysOf l <;> simp [hm])]
    rw [infoOf_ensureKey]
  · rw [if_neg h, infoOf_modifyKey_ne _ _ _ _ h, infoOf_ensureKey]

/-- Key list after `addPred`. -/
theorem keysOf_addPred (node : String) (l : N2I) (pred : String) :
    keysOf (addPred node l pred) =
      if pred ∈ keysOf l then keysOf l else keysOf l ++ [pred] := by
  unfold addPred
  rw [keysOf_modifyKey, keysOf_ensureKey]

/-- The effect of registering a whole dependency list: each occurrence of
`x` in `ds` appends one copy of `node` to `x`'s successor list. -/
theorem infoOf_foldl_addPred (node : String) :
    ∀ (ds : List String) (l : N2I) (x : String),
    infoOf (ds.foldl (addPred node) l) x =
      ⟨(infoOf l x).npredecessors,
       (infoOf l x).successors ++ List.replicate (ds.count x) node⟩ := by
  intro ds
  induction ds with
  | nil =>
    intro l x
    simp
  | cons d rest ih =>
    intro l x
    rw [List.foldl_cons, ih, infoOf_addPred]
    by_cases h : x = d
    · subst h
      rw [if_pos rfl]
      rw [List.count_cons_self]
      simp [List.replicate_succ, List.append_assoc]
    · rw [if_neg h]
      rw [List.count_cons_of_ne (by simpa using h)]

/-- Membership in the key list after registering a dependency list. -/
theorem mem_keysOf_foldl_addPred (node : String) :
    ∀ (ds : List String) (l : N2I) (x : String),
    x ∈ keysOf (ds.foldl (addPred node) l) ↔ x ∈ keysOf l ∨ x ∈ ds := by
  intro ds
  induction ds with
  | nil =>
    intro l x
    simp
  | cons d rest ih =>
    intro l x
    rw [List.foldl_cons, ih, keysOf_addPred]
    by_cases hm : d ∈ keysOf l
    · rw [if_pos hm]
      constructor
      · rintro (h | h)
        · exact Or.inl h
        · exact Or.inr (List.mem_cons_of_mem _ h)
      · rintro (h | h)
        · exact Or.inl h
        · rcases List.mem_cons.mp h with rfl | h
          · exact Or.inl hm
          · exact Or.inr h
    · rw [if_neg hm]
      simp only [List.mem_append, List.mem_singleton, List.mem_cons]
      tauto

/-- The key list stays duplicate-free while registering dependencies. -/
theorem nodup_keysOf_foldl_addPred (node : String) :
    ∀ (ds : List String) (l : N2I), (keysOf l).Nodup →
    (keysOf (ds.foldl (addPred node) l)).Nodup := by
  intro ds
  induction ds with
  | nil =>
    intro l h
    simpa using h
  | cons d rest ih =>
    intro l h
    rw [List.foldl_cons]
    apply ih
    rw [keysOf_addPred]
    by_cases hm : d ∈ keysOf l
    · rwa [if_pos hm]
    · rw [if_neg hm]
      simp [List.nodup_append, h, hm]

/-- The full effect of one `add(node, *preds)` call on a record. -/
theorem infoOf_addCrate (l : N2I) (n : String) (ds : List String) (x : String) :
    infoOf (addCrate l n ds) x =
      ⟨(infoOf l x).npredecessors + (if x = n then (ds.length : Int) else 0),
       (infoOf l x).successors ++ List.replicate (ds.count x) n⟩ := by
  unfold addCrate
  rw [infoOf_foldl_addPred]
  by_cases h : x = n
  · subst h
    rw [infoOf_modifyKey_self _ _ _
      (by rw [keysOf_ensureKey]; by_cases hm : x ∈ keysOf l <;> simp [hm])]
    rw [infoOf_ensureKey, if_pos rfl]
  · rw [infoOf_modifyKey_ne _ _ _ _ h, infoOf_ensureKey, if_neg h]
    simp

/-- Membership in the key list after one `add` call. -/
theorem mem_keysOf_addCrate (l : N2I) (n : String) (ds : List String) (x : String) :
    x ∈ keysOf (addCrate l n ds) ↔ x ∈ keysOf l ∨ x = n ∨ x ∈ ds := by
  unfold addCrate
  rw [mem_keysOf_foldl_addPred, keysOf_modifyKey, keysOf_ensureKey]
  by_cases hm : n ∈ keysOf l
  · rw [if_pos hm]
    constructor
    · rintro (h | h)
      · exact Or.inl h
      · exact Or.inr (Or.inr h)
    · rintro (h | rfl | h)
      · exact Or.inl h
      · exact Or.inl hm
      · exact Or.inr h
  · rw [if_neg hm]
    simp only [List.mem_append, List.mem_singleton]
    tauto

/-- The key list stays duplicate-free across one `add` call. -/
theorem nodup_keysOf_addCrate (l : N2I) (n : String) (ds : List String)
    (h : (keysOf l).Nodup) : (keysOf (addCrate l n ds)).Nodup := by
  unfold addCrate
  apply nodup_keysOf_foldl_addPred
  rw [keysOf_modifyKey, keysOf_ensureKey]
  by_cases hm : n ∈ keysOf l
  · rwa [if_pos hm]
  · rw [if_neg hm]
    simp [List.nodup_append, h, hm]

/-- The build loop, over an arbitrary initial dict. -/
theorem infoOf_buildSorter_aux :
    ∀ (cs : List (String × List String)) (l : N2I) (x : String),
    infoOf (cs.foldl (fun l c => addCrate l c.1 c.2) l) x =
      ⟨(infoOf l x).npredecessors + (npredSpec cs x : Int),
       (infoOf l x).successors ++ succsSpec cs x⟩ := by
  intro cs
  induction cs with
  | nil =>
    intro l x
    simp [npredSpec, succsSpec]
  | cons c rest ih =>
    intro l x
    rw [List.foldl_cons, ih, infoOf_addCrate]
    simp only [NodeInfo.mk.injEq]
    refine ⟨?_, ?_⟩
    · simp only [npredSpec, List.map_cons, List.sum_cons]
      by_cases h : x = c.1
      · rw [if_pos h, if_pos h.symm]
        push_cast
        ring
      · rw [if_neg h, if_neg (fun hh => h hh.symm)]
        push_cast
        ring
    · simp only [succsSpec, List.flatMap_cons, List.append_assoc]

/-- What the built sorter records for every name: the predecessor count
and successor list described by `npredSpec` and `succsSpec`. -/
theorem infoOf_buildSorter (cs : List (String × List String)) (x : String) :
    infoOf (buildSorter cs) x = ⟨(npredSpec cs x : Int), succsSpec cs x⟩ := by
  unfold buildSorter
  rw [infoOf_buildSorter_aux]
  show (⟨0 + (npredSpec cs x : Int), [] ++ succsSpec cs x⟩ : NodeInfo) = _
  simp

/-- The successor lists of the built sorter. -/
theorem succsOf_buildSorter (cs : List (String × List String)) (x : String) :
    succsOf (buildSorter cs) x = succsSpec cs x := by
  unfold succsOf
  rw [infoOf_buildSorter]

/-- The predecessor counts of the built sorter. -/
theorem npredOf_buildSorter (cs : List (String × List String)) (x : String) :
    npredOf (buildSorter cs) x = (npredSpec cs x : Int) := by
  unfold npredOf
  rw [infoOf_buildSorter]

/-- Membership of the built sorter's node set: exactly the crate names and
the names occurring in some dependency list. -/
theorem mem_keysOf_buildSorter :
    ∀ (cs : List (String × List String)) (x : String),
    x ∈ keysOf (buildSorter cs) ↔
      (∃ p ∈ cs, p.1 = x) ∨ (∃ p ∈ cs, x ∈ p.2) := by
  have aux : ∀ (cs : List (String × List String)) (l : N2I) (x : String),
      x ∈ keysOf (cs.foldl (fun l c => addCrate l c.1 c.2) l) ↔
        x ∈ keysOf l ∨ (∃ p ∈ cs, p.1 = x) ∨ (∃ p ∈ cs, x ∈ p.2) := by
    intro cs
    induction cs with
    | nil =>
      intro l x
      simp
    | cons c rest ih =>
      intro l x
      rw [List.foldl_cons, ih, mem_keysOf_addCrate]
      constructor
      · rintro ((h | h | h) | h | h)
        · exact Or.inl h
        · exact Or.inr (Or.inl ⟨c, List.mem_cons_self c rest, h.symm⟩)
        · exact Or.inr (Or.inr ⟨c, List.mem_cons_self c rest, h⟩)
        · obtain ⟨p, hp, he⟩ := h
          exact Or.inr (Or.inl ⟨p, List.mem_cons_of_mem _ hp, he⟩)
        · obtain ⟨p, hp, he⟩ := h
          exact Or.inr (Or.inr ⟨p, List.mem_cons_of_mem _ hp, he⟩)
      · rintro (h | ⟨p, hp, he⟩ | ⟨p, hp, he⟩)
        · exact Or.inl (Or.inl h)
        · rcases List.mem_cons.mp hp with rfl | hp
          · exact Or.inl (Or.inr (Or.inl he.symm))
          · exact Or.inr (Or.inl ⟨p, hp, he⟩)
        · rcases List.mem_cons.mp hp with rfl | hp
          · exact Or.inl (Or.inr (Or.inr he))
          · exact Or.inr (Or.inr ⟨p, hp, he⟩)
  intro cs x
  unfold buildSorter
  rw [aux]
  simp [keysOf]

/-- The built sorter's node list is duplicate-free. -/
theorem nodup_keysOf_buildSorter (cs : List (String × List String)) :
    (keysOf (buildSorter cs)).Nodup := by
  have aux : ∀ (cs : List (String × List String)) (l : N2I),
      (keysOf l).Nodup →
      (keysOf (cs.foldl (fun l c => addCrate l c.1 c.2) l)).Nodup := by
    intro cs
    induction cs with
    | nil =>
      intro l h
      simpa using h
    | cons c rest ih =>
      intro l h
      rw [List.foldl_cons]
      exact ih _ (nodup_keysOf_addCrate _ _ _ h)
  exact aux cs [] (by simp [keysOf])

/-- Unfolding lemma: `depsOf` on a cons cell. -/
theorem depsOf_cons (n : String) (ds : List String)
    (rest : List (String × List String)) (x : String) :
    depsOf ((n, ds) :: rest) x = if n = x then ds else depsOf rest x := by
  unfold depsOf
  rw [List.find?_cons]
  by_cases h : n = x
  · simp [h]
  · have hb : ((n, ds).1 == x) = false := by simpa using h
    simp [hb, h]

/-- Names that own no crate entry have no declared dependencies. -/
theorem depsOf_eq_nil (cs : List (String × List String)) (x : String)
    (h : ∀ p ∈ cs, p.1 ≠ x) : depsOf cs x = [] := by
  induction cs with
  | nil => rfl
  | cons q rest ih =>
    rcases q with ⟨n, ds⟩
    rw [depsOf_cons, if_neg (h (n, ds) (List.mem_cons_self _ _))]
    exact ih (fun p hp => h p (List.mem_cons_of_mem _ hp))

/-- With duplicate-free crate names, `depsOf` recovers each entry. -/
theorem depsOf_eq_of_mem (cs : List (String × List String))
    (hn : (cs.map Prod.fst).Nodup) (a : String) (ds : List String)
    (h : (a, ds) ∈ cs) : depsOf cs a = ds := by
  induction cs with
  | nil => cases h
  | cons q rest ih =>
    rcases q with ⟨n, ds'⟩
    rw [depsOf_cons]
    rcases List.mem_cons.mp h with heq | hmem
    · obtain ⟨h1, h2⟩ := Prod.mk.injEq .. ▸ heq
      rw [if_pos (by rw [h1])]
      exact h2.symm ▸ rfl
    · by_cases hx : n = a
      · exfalso
        subst hx
        have : n ∈ rest.map Prod.fst := List.mem_map.mpr ⟨(n, ds), hmem, rfl⟩
        exact (List.nodup_cons.mp (by simpa using hn)).1 this
      · rw [if_neg hx]
        exact ih (List.nodup_cons.mp (by simpa using hn)).2 hmem

/-- A name with declared dependencies owns a crate entry. -/
theorem exists_entry_of_depsOf_ne_nil (cs : List (String × List String))
    (x : String) (h : depsOf cs x ≠ []) : ∃ p ∈ cs, p.1 = x := by
  by_contra hc
  push_neg at hc
  exact h (depsOf_eq_nil cs x hc)

/-- Every declared dependency is an edge of the input graph. -/
theorem depEdge_of_mem_depsOf (cs : List (String × List String))
    (x b : String) (h : b ∈ depsOf cs x) : DepEdge cs x b := by
  unfold depsOf at h
  cases hf : cs.find? (fun p => p.1 == x) with
  | none => rw [hf] at h; cases h
  | some p =>
    rw [hf] at h
    simp at h
    have hpred : p.1 = x := by
      have := List.find?_some hf
      simpa using this
    exact ⟨p, List.mem_of_find?_eq_some hf, hpred, h⟩

/-- With duplicate-free names, the edges of the graph are exactly the
entries of `depsOf`. -/
theorem mem_depsOf_iff_depEdge (cs : List (String × List String))
    (hn : (cs.map Prod.fst).Nodup) (x b : String) :
    b ∈ depsOf cs x ↔ DepEdge cs x b := by
  constructor
  · exact depEdge_of_mem_depsOf cs x b
  · rintro ⟨p, hp, h1, h2⟩
    rcases p with ⟨n, ds⟩
    cases h1
    rw [depsOf_eq_of_mem cs hn _ _ hp]
    exact h2

/-- Membership of the accumulated successor lists: `y` succeeds `x`
exactly when some crate entry named `y` declares `x`. -/
theorem mem_succsSpec (cs : List (String × List String)) (x y : String) :
    y ∈ succsSpec cs x ↔ ∃ p ∈ cs, p.1 = y ∧ x ∈ p.2 := by
  unfold succsSpec
  rw [List.mem_flatMap]
  constructor
  · rintro ⟨p, hp, hy⟩
    obtain ⟨hc, rfl⟩ := List.mem_replicate.mp hy
    exact ⟨p, hp, rfl, by
      by_contra hx
      exact hc (List.count_eq_zero.mpr hx)⟩
  · rintro ⟨p, hp, rfl, hx⟩
    exact ⟨p, hp, List.mem_replicate.mpr
      ⟨by simpa using List.count_pos_iff.mpr hx |>.ne', rfl⟩⟩

/-- Membership of the built successor lists is the reversed edge
relation: `y ∈ succs x` iff `y` depends on `x`. -/
theorem mem_succsOf_buildSorter_iff (cs : List (String × List String))
    (hn : (cs.map Prod.fst).Nodup) (x y : String) :
    y ∈ succsOf (buildSorter cs) x ↔ x ∈ depsOf cs y := by
  rw [succsOf_buildSorter, mem_succsSpec, mem_depsOf_iff_depEdge cs hn]
  constructor
  · rintro ⟨p, hp, h1, h2⟩
    exact ⟨p, hp, h1, h2⟩
  · rintro ⟨p, hp, h1, h2⟩
    exact ⟨p, hp, h1, h2⟩

/-- Every successor is a crate name, hence a node. -/
theorem mem_keys_of_mem_succsSpec (cs : List (String × List String))
    (x y : String) (h : y ∈ succsSpec cs x) :
    y ∈ keysOf (buildSorter cs) := by
  obtain ⟨p, hp, h1, _⟩ := (mem_succsSpec cs x y).mp h
  exact (mem_keysOf_buildSorter cs y).mpr (Or.inl ⟨p, hp, h1⟩)

/-- Every declared dependency is a node. -/
theorem mem_keys_of_mem_depsOf (cs : List (String × List String))
    (x b : String) (h : b ∈ depsOf cs x) :
    b ∈ keysOf (buildSorter cs) := by
  obtain ⟨p, hp, _, h2⟩ := depEdge_of_mem_depsOf cs x b h
  exact (mem_keysOf_buildSorter cs b).mpr (Or.inr ⟨p, hp, h2⟩)

/-- Every crate name is a node. -/
theorem mem_keys_of_entry (cs : List (String × List String))
    (p : String × List String) (hp : p ∈ cs) :
    p.1 ∈ keysOf (buildSorter cs) :=
  (mem_keysOf_buildSorter cs p.1).mpr (Or.inl ⟨p, hp, rfl⟩)


/-- Unfolding lemma: `npredSpec` on a cons cell. -/
theorem npredSpec_cons (n : String) (ds : List String)
    (rest : List (String × List String)) (x : String) :
    npredSpec ((n, ds) :: rest) x =
      (if n = x then ds.length else 0) + npredSpec rest x := by
  unfold npredSpec
  rw [List.map_cons, List.sum_cons]

/-- Unfolding lemma: `succsSpec` on a cons cell. -/
theorem succsSpec_cons (n : String) (ds : List String)
    (rest : List (String × List String)) (x : String) :
    succsSpec ((n, ds) :: rest) x =
      List.replicate (ds.count x) n ++ succsSpec rest x := by
  unfold succsSpec
  rw [List.flatMap_cons]

/-- Head-and-tail split of a duplicate-free name list. -/
theorem nodup_names_cons (n : String) (ds : List String)
    (rest : List (String × List String))
    (hn : (((n, ds) :: rest).map Prod.fst).Nodup) :
    n ∉ rest.map Prod.fst ∧ (rest.map Prod.fst).Nodup := by
  rw [List.map_cons] at hn
  exact List.nodup_cons.mp hn

/-- Names with no crate entry have predecessor count zero. -/
theorem npredSpec_eq_zero (cs : List (String × List String)) (x : String)
    (h : ∀ p ∈ cs, p.1 ≠ x) : npredSpec cs x = 0 := by
  induction cs with
  | nil => rfl
  | cons q rest ih =>
    rcases q with ⟨n, ds⟩
    rw [npredSpec_cons, if_neg (h (n, ds) (List.mem_cons_self _ _))]
    rw [ih (fun p hp => h p (List.mem_cons_of_mem _ hp))]

/-- With duplicate-free names, the predecessor count of a name is the
number of its declared dependencies. -/
theorem npredSpec_eq_length_depsOf (cs : List (String × List String))
    (hn : (cs.map Prod.fst).Nodup) (x : String) :
    npredSpec cs x = (depsOf cs x).length := by
  induction cs with
  | nil => rfl
  | cons q rest ih =>
    rcases q with ⟨n, ds⟩
    obtain ⟨h1, h2⟩ := nodup_names_cons n ds rest hn
    rw [npredSpec_cons, depsOf_cons]
    by_cases h : n = x
    · rw [if_pos h, if_pos h]
      rw [npredSpec_eq_zero rest x (fun p hp he => h1 (h ▸ he ▸ List.mem_map.mpr ⟨p, hp, rfl⟩))]
      omega
    · rw [if_neg h, if_neg h, ih h2]
      omega

/-- With duplicate-free names, the multiplicity of `y` in `x`'s successor
list is the multiplicity of `x` among `y`'s dependencies. -/
theorem count_succsSpec (cs : List (String × List String))
    (hn : (cs.map Prod.fst).Nodup) (x y : String) :
    (succsSpec cs x).count y = (depsOf cs y).count x := by
  induction cs with
  | nil => rfl
  | cons q rest ih =>
    rcases q with ⟨n, ds⟩
    obtain ⟨h1, h2⟩ := nodup_names_cons n ds rest hn
    rw [succsSpec_cons, List.count_append, depsOf_cons, List.count_replicate, ih h2]
    by_cases h : n = y
    · subst h
      rw [if_pos rfl]
      rw [depsOf_eq_nil rest n (fun p hp he => h1 (he ▸ List.mem_map.mpr ⟨p, hp, rfl⟩))]
      simp
    · rw [if_neg h]
      simp [h]

/-! ## The Kahn loop: characterisation of `doneDec` -/

/-- `contains` is boolean membership. -/
theorem contains_iff (l : List String) (a : String) :
    l.contains a = true ↔ a ∈ l := by
  induction l with
  | nil => simp
  | cons b rest ih =>
    rw [List.contains_cons, Bool.or_eq_true, ih]
    constructor
    · rintro (h | h)
      · exact (beq_iff_eq.mp h) ▸ List.mem_cons_self _ _
      · exact List.mem_cons_of_mem _ h
    · intro h
      rcases List.mem_cons.mp h with rfl | h
      · exact Or.inl (by simp)
      · exact Or.inr h

/-- Predecessor counts after processing a decrement sequence: each
occurrence subtracts one. -/
theorem doneDec_np : ∀ (l : List String) (np : String → Int)
    (acc : List String) (x : String),
    (doneDec l np acc).1 x = np x - l.count x := by
  intro l
  induction l with
  | nil =>
    intro np acc x
    simp [doneDec]
  | cons s rest ih =>
    intro np acc x
    rw [List.count_cons]
    simp only [doneDec]
    by_cases h : np s - 1 = 0
    · rw [if_pos h, ih]
      by_cases hx : x = s
      · subst hx
        simp only [if_pos rfl]
        simp
        omega
      · have hsx : ¬ s = x := fun hh => hx hh.symm
        simp only [if_neg hx]
        have hb : (x == s) = false := by simpa using hx
        simp [hb, hsx]
    · rw [if_neg h, ih]
      by_cases hx : x = s
      · subst hx
        simp only [if_pos rfl]
        simp
        omega
      · have hsx : ¬ s = x := fun hh => hx hh.symm
        simp only [if_neg hx]
        have hb : (x == s) = false := by simpa using hx
        simp [hb, hsx]

/-- Nodes appended while processing a decrement sequence: a node appears
exactly once iff its count passes through zero (it starts at least 1 and
at most the number of its occurrences), and never more than once. -/
theorem doneDec_count : ∀ (l : List String) (np : String → Int)
    (acc : List String) (x : String),
    (doneDec l np acc).2.count x =
      acc.count x + (if 1 ≤ np x ∧ np x ≤ (l.count x : Int) then 1 else 0) := by
  intro l
  induction l with
  | nil =>
    intro np acc x
    simp only [doneDec, List.count_nil, Nat.cast_zero]
    rw [if_neg (by omega)]
    omega
  | cons s rest ih =>
    intro np acc x
    rw [List.count_cons]
    simp only [doneDec]
    by_cases h : np s - 1 = 0
    · rw [if_pos h, ih]
      by_cases hx : x = s
      · subst hx
        simp only [if_pos rfl, List.count_append]
        have h1 : List.count x [x] = 1 := by simp
        rw [h1, if_pos (show (x == x) = true by simp)]
        push_cast
        split_ifs <;> omega
      · have hsx : ¬ s = x := fun hh => hx hh.symm
        simp only [if_neg hx, List.count_append]
        have h0 : List.count x [s] = 0 := by
          simp [List.count_singleton]
          exact hsx
        rw [h0, if_neg (show ¬((s == x) = true) by simp [hsx])]
        push_cast
        split_ifs <;> omega
    · rw [if_neg h, ih]
      by_cases hx : x = s
      · subst hx
        simp only [if_pos rfl]
        rw [if_pos (show (x == x) = true by simp)]
        push_cast
        split_ifs <;> omega
      · have hsx : ¬ s = x := fun hh => hx hh.symm
        simp only [if_neg hx]
        rw [if_neg (show ¬((s == x) = true) by simp [hsx])]
        push_cast
        split_ifs <;> omega

/-- Membership of the freshly appended ready list. -/
theorem doneDec_mem (l : List String) (np : String → Int) (x : String) :
    x ∈ (doneDec l np []).2 ↔ 1 ≤ np x ∧ np x ≤ (l.count x : Int) := by
  have h := doneDec_count l np [] x
  rw [List.count_nil] at h
  constructor
  · intro hm
    have hp : 0 < (doneDec l np []).2.count x := List.count_pos_iff.mpr hm
    rw [h] at hp
    split_ifs at hp with hc
    · exact hc
    · omega
  · intro hc
    apply List.count_pos_iff.mp
    rw [h, if_pos hc]
    omega

/-- The freshly appended ready list is duplicate-free. -/
theorem doneDec_nodup (l : List String) (np : String → Int) :
    (doneDec l np []).2.Nodup := by
  rw [List.nodup_iff_count_le_one]
  intro a
  rw [doneDec_count, List.count_nil]
  split_ifs <;> omega

/-- Counting across a flattened successor sequence. -/
theorem count_flatMap (f : String → List String) :
    ∀ (l : List String) (x : String),
    (l.flatMap f).count x = (l.map (fun b => (f b).count x)).sum := by
  intro l x
  induction l with
  | nil => rfl
  | cons b rest ih =>
    rw [List.flatMap_cons, List.count_append, List.map_cons, List.sum_cons, ih]

/-- Summing the multiplicities of the members of a duplicate-free list
counts the filtered occurrences. -/
theorem sum_counts_eq_length_filter :
    ∀ (r : List String) (l : List String), r.Nodup →
    (r.map (fun b => l.count b)).sum = (l.filter (fun a => r.contains a)).length := by
  intro r
  induction r with
  | nil =>
    intro l _
    simp
  | cons b r' ih =>
    intro l hr
    obtain ⟨hb, hr'⟩ := List.nodup_cons.mp hr
    rw [List.map_cons, List.sum_cons, ih l hr']
    induction l with
    | nil => simp
    | cons a l' ihl =>
      rw [List.count_cons]
      simp only [List.filter_cons]
      by_cases hab : a = b
      · subst hab
        have h1 : ((a :: r').contains a) = true := by
          rw [contains_iff]
          exact List.mem_cons_self _ _
        have h2 : (r'.contains a) = false := by
          by_contra hc
          rw [Bool.not_eq_false, contains_iff] at hc
          exact hb hc
        rw [h1, h2]
        rw [if_pos (show (a == a) = true by simp)]
        simp only [if_true, Bool.false_eq_true, if_false, List.length_cons]
        omega
      · have h1 : ((b :: r').contains a) = (r'.contains a) := by
          rw [List.contains_cons]
          have : (a == b) = false := by simpa using hab
          rw [this]
          simp
        rw [h1]
        rw [if_neg (show ¬((a == b) = true) by simpa using hab)]
        by_cases hm : r'.contains a = true
        · rw [hm]
          simp only [if_true, List.length_cons]
          omega
        · rw [Bool.not_eq_true] at hm
          rw [hm]
          simp only [Bool.false_eq_true, if_false]
          omega

/-- `contains` is false exactly on non-members. -/
theorem contains_eq_false_iff (l : List String) (a : String) :
    l.contains a = false ↔ a ∉ l := by
  rw [← contains_iff]
  cases l.contains a <;> simp

/-- Splitting the pending count over a freshly emitted disjoint group. -/
theorem length_filter_split (l em group : List String)
    (hdisj : ∀ b ∈ group, b ∉ em) :
    (l.filter (fun b => !(em.contains b))).length =
      (l.filter (fun b => !((em ++ group).contains b))).length +
      (l.filter (fun b => group.contains b)).length := by
  induction l with
  | nil => simp
  | cons a l' ih =>
    simp only [List.filter_cons]
    have happ : ((em ++ group).contains a) = (em.contains a || group.contains a) := by
      cases hem : em.contains a
      · cases hg : group.contains a
        · simp only [Bool.or_self]
          rw [contains_eq_false_iff] at hem hg ⊢
          intro hc
          rcases List.mem_append.mp hc with hc | hc
          · exact hem hc
          · exact hg hc
        · simp only [Bool.or_true]
          rw [contains_iff] at hg ⊢
          exact List.mem_append.mpr (Or.inr hg)
      · simp only [Bool.true_or]
        rw [contains_iff] at hem ⊢
        exact List.mem_append.mpr (Or.inl hem)
    by_cases h1 : a ∈ em
    · have he : em.contains a = true := (contains_iff _ _).mpr h1
      have hg : group.contains a = false := by
        rw [contains_eq_false_iff]
        exact fun hc => hdisj a hc h1
      rw [he, hg, happ, he, hg]
      simp only [Bool.not_true, Bool.true_or, Bool.false_eq_true, if_false, List.length_cons]
      omega
    · have he : em.contains a = false := (contains_eq_false_iff _ _).mpr h1
      by_cases h2 : a ∈ group
      · have hg : group.contains a = true := (contains_iff _ _).mpr h2
        rw [he, hg, happ, he, hg]
        simp only [Bool.not_false, Bool.not_true, Bool.false_or, Bool.false_eq_true,
          if_false, if_true, List.length_cons]
        omega
      · have hg : group.contains a = false := (contains_eq_false_iff _ _).mpr h2
        rw [he, hg, happ, he, hg]
        simp only [Bool.not_false, Bool.or_self, Bool.false_eq_true, if_false,
          if_true, List.length_cons]
        omega

/-- Pointwise implication between filters bounds their lengths. -/
theorem length_filter_le_of_imp (l : List String) (p q : String → Bool)
    (h : ∀ a ∈ l, p a = true → q a = true) :
    (l.filter p).length ≤ (l.filter q).length := by
  induction l with
  | nil => simp
  | cons a l' ih =>
    have ih' := ih (fun b hb => h b (List.mem_cons_of_mem _ hb))
    simp only [List.filter_cons]
    by_cases hp : p a = true
    · rw [hp, h a (List.mem_cons_self _ _) hp]
      simp only [if_true, List.length_cons]
      omega
    · rw [Bool.not_eq_true] at hp
      rw [hp]
      simp only [Bool.false_eq_true, if_false]
      by_cases hq : q a = true
      · rw [hq]
        simp only [if_true, List.length_cons]
        omega
      · rw [Bool.not_eq_true] at hq
        rw [hq]
        simp only [Bool.false_eq_true, if_false]
        omega

/-- Two pointwise equivalent filters have equal lengths. -/
theorem length_filter_congr (l : List String) (p q : String → Bool)
    (h : ∀ a ∈ l, p a = q a) :
    (l.filter p).length = (l.filter q).length := by
  apply Nat.le_antisymm
  · exact length_filter_le_of_imp l p q (fun a ha hp => (h a ha) ▸ hp)
  · exact length_filter_le_of_imp l q p (fun a ha hq => (h a ha).symm ▸ hq)

/-! ## The Kahn loop: invariant lemmas -/

/-- With no emitted nodes, everything is pending. -/
theorem pendingDeps_nil (cs : List (String × List String)) (x : String) :
    pendingDeps cs [] x = depsOf cs x := by
  unfold pendingDeps
  rw [List.filter_eq_self]
  intro b _
  rfl

/-- Membership of the pending-dependency list. -/
theorem mem_pendingDeps (cs : List (String × List String)) (em : List String)
    (x b : String) :
    b ∈ pendingDeps cs em x ↔ b ∈ depsOf cs x ∧ b ∉ em := by
  unfold pendingDeps
  rw [List.mem_filter]
  constructor
  · rintro ⟨h1, h2⟩
    refine ⟨h1, ?_⟩
    rw [Bool.not_eq_eq_eq_not] at h2
    exact (contains_eq_false_iff _ _).mp (by simpa using h2)
  · rintro ⟨h1, h2⟩
    refine ⟨h1, ?_⟩
    rw [show (em.contains b) = false from (contains_eq_false_iff _ _).mpr h2]
    rfl

/-- When all dependencies are emitted, nothing is pending. -/
theorem pendingDeps_eq_nil_of_closed (cs : List (String × List String))
    (em : List String) (x : String)
    (h : ∀ b ∈ depsOf cs x, b ∈ em) : pendingDeps cs em x = [] := by
  rw [List.eq_nil_iff_forall_not_mem]
  intro b hb
  obtain ⟨h1, h2⟩ := (mem_pendingDeps cs em x b).mp hb
  exact h2 (h b h1)

/-- A topologically ordered list is closed under dependencies. -/
theorem topoOrdered_closed (cs : List (String × List String)) (l : List String)
    (ht : TopoOrdered cs l) (x : String) (hx : x ∈ l) :
    ∀ b ∈ depsOf cs x, b ∈ l := by
  intro b hb
  obtain ⟨⟨i, hi⟩, hget⟩ := List.mem_iff_get.mp hx
  have := ht i hi b (by rw [hget]; exact hb)
  exact List.take_subset i l this

/-- Appending nodes whose dependencies are all in the prefix preserves
topological orderedness. -/
theorem topoOrdered_append (cs : List (String × List String))
    (l1 l2 : List String) (h1 : TopoOrdered cs l1)
    (h2 : ∀ x ∈ l2, ∀ b ∈ depsOf cs x, b ∈ l1) :
    TopoOrdered cs (l1 ++ l2) := by
  intro i hi b hb
  rw [List.take_append_eq_append_take]
  by_cases hlt : i < l1.length
  · have hget : (l1 ++ l2).get ⟨i, hi⟩ = l1.get ⟨i, hlt⟩ := by
      rw [List.get_append]
    rw [hget] at hb
    exact List.mem_append.mpr (Or.inl (h1 i hlt b hb))
  · push_neg at hlt
    have hget : (l1 ++ l2).get ⟨i, hi⟩ =
        l2.get ⟨i - l1.length, by
          rw [List.length_append] at hi
          omega⟩ := by
      apply List.get_append_right
      omega
    rw [hget] at hb
    refine List.mem_append.mpr (Or.inl ?_)
    rw [List.take_of_length_le hlt]
    exact h2 _ (List.get_mem _ _ _) b hb

/-- In a dict with duplicate-free keys, every entry is what lookup finds. -/
theorem infoOf_of_mem_nodup (l : N2I) (hnd : (keysOf l).Nodup)
    (x : String) (i : NodeInfo) (h : (x, i) ∈ l) : infoOf l x = i := by
  induction l with
  | nil => cases h
  | cons p rest ih =>
    rcases p with ⟨k, j⟩
    rw [infoOf_cons]
    have hnd' : (k :: keysOf rest).Nodup := by
      have hmk := hnd
      simp only [keysOf, List.map_cons] at hmk
      exact hmk
    obtain ⟨hk, hrest⟩ := List.nodup_cons.mp hnd'
    rcases List.mem_cons.mp h with heq | hmem
    · obtain ⟨h1, h2⟩ := Prod.mk.injEq .. ▸ heq
      rw [if_pos h1.symm]
      exact h2.symm
    · by_cases hkx : k = x
      · exfalso
        subst hkx
        exact hk (List.mem_map.mpr ⟨(k, i), hmem, rfl⟩)
      · rw [if_neg hkx]
        exact ih hrest hmem

/-- Membership of the initial ready list of `prepare`: the nodes with
zero predecessor count. -/
theorem mem_readyInit (l : N2I) (hnd : (keysOf l).Nodup) (x : String) :
    x ∈ readyInit l ↔ x ∈ keysOf l ∧ npredOf l x = 0 := by
  unfold readyInit
  constructor
  · intro h
    obtain ⟨p, hp, hpx⟩ := List.mem_map.mp h
    obtain ⟨hmem, hz⟩ := List.mem_filter.mp hp
    rcases p with ⟨k, i⟩
    cases hpx
    refine ⟨List.mem_map.mpr ⟨(k, i), hmem, rfl⟩, ?_⟩
    rw [show npredOf l k = i.npredecessors by
      unfold npredOf; rw [infoOf_of_mem_nodup l hnd k i hmem]]
    simpa using hz
  · rintro ⟨h1, h2⟩
    obtain ⟨p, hp, hpx⟩ := List.mem_map.mp h1
    rcases p with ⟨k, i⟩
    cases hpx
    apply List.mem_map.mpr
    refine ⟨(k, i), List.mem_filter.mpr ⟨hp, ?_⟩, rfl⟩
    have : npredOf l k = i.npredecessors := by
      unfold npredOf; rw [infoOf_of_mem_nodup l hnd k i hp]
    rw [this] at h2
    simpa using h2

/-- The initial ready list is duplicate-free. -/
theorem readyInit_nodup (l : N2I) (hnd : (keysOf l).Nodup) :
    (readyInit l).Nodup := by
  unfold readyInit
  have : ((l.filter (fun p => p.2.npredecessors == 0)).map Prod.fst).Sublist
      (l.map Prod.fst) := (List.filter_sublist l).map Prod.fst
  exact this.nodup hnd

/-- The initial ready list consists of nodes. -/
theorem readyInit_subset (l : N2I) (x : String) (h : x ∈ readyInit l) :
    x ∈ keysOf l := by
  unfold readyInit at h
  obtain ⟨p, hp, hpx⟩ := List.mem_map.mp h
  exact List.mem_map.mpr ⟨p, (List.mem_filter.mp hp).1, hpx⟩

/-- The invariant holds when the Kahn loop starts: nothing emitted, the
ready list of `prepare`, the built predecessor counts. -/
theorem kahnInv_init (cs : List (String × List String))
    (hn : (cs.map Prod.fst).Nodup) :
    KahnInv cs [] (readyInit (buildSorter cs)) (npredOf (buildSorter cs)) := by
  have hnd := nodup_keysOf_buildSorter cs
  refine ⟨List.nodup_nil, readyInit_nodup _ hnd, ?_, ?_, ?_, ?_, ?_, ?_, ?_⟩
  · intro x _
    simp
  · intro x hx
    cases hx
  · intro x hx
    exact readyInit_subset _ x hx
  · intro x
    rw [pendingDeps_nil, npredOf_buildSorter, npredSpec_eq_length_depsOf cs hn]
  · intro x hx b hb
    obtain ⟨_, hz⟩ := (mem_readyInit _ hnd x).mp hx
    rw [npredOf_buildSorter, npredSpec_eq_length_depsOf cs hn] at hz
    have hnil : depsOf cs x = [] := List.length_eq_zero.mp (by exact_mod_cast hz)
    rw [hnil] at hb
    cases hb
  · intro x hxk _ hdeps
    apply (mem_readyInit _ hnd x).mpr
    refine ⟨hxk, ?_⟩
    rw [npredOf_buildSorter, npredSpec_eq_length_depsOf cs hn]
    have hnil : depsOf cs x = [] := by
      rw [List.eq_nil_iff_forall_not_mem]
      intro b hb
      cases hdeps b hb
    rw [hnil]
    rfl
  · intro i hi
    exact absurd hi (by simp)

/-- One round of the Kahn loop preserves the invariant: the whole ready
group is emitted and `done` computes the next counts and ready list. -/
theorem kahnInv_step (cs : List (String × List String))
    (hn : (cs.map Prod.fst).Nodup) (em ready : List String)
    (np : String → Int) (inv : KahnInv cs em ready np) :
    KahnInv cs (em ++ ready)
      (kahnStep (succsOf (buildSorter cs)) ready np).2
      (kahnStep (succsOf (buildSorter cs)) ready np).1 := by
  have hcount : ∀ x, ((ready.flatMap (succsOf (buildSorter cs))).count x : Int) =
      (((depsOf cs x).filter (fun b => ready.contains b)).length : Int) := by
    intro x
    rw [count_flatMap]
    have hmap : ready.map (fun b => ((succsOf (buildSorter cs)) b).count x) =
        ready.map (fun b => (depsOf cs x).count b) := by
      apply List.map_congr_left
      intro b _
      rw [succsOf_buildSorter, count_succsSpec cs hn]
    rw [hmap, sum_counts_eq_length_filter ready _ inv.rd_nodup]
  have hnp' : ∀ x, (kahnStep (succsOf (buildSorter cs)) ready np).1 x =
      np x - ((ready.flatMap (succsOf (buildSorter cs))).count x : Int) := by
    intro x
    unfold kahnStep
    rw [doneDec_np]
  have hmem : ∀ x, x ∈ (kahnStep (succsOf (buildSorter cs)) ready np).2 ↔
      1 ≤ np x ∧ np x ≤ ((ready.flatMap (succsOf (buildSorter cs))).count x : Int) := by
    intro x
    unfold kahnStep
    rw [doneDec_mem]
  have hdisj : ∀ b ∈ ready, b ∉ em := inv.disj
  have hle : ∀ x, (((depsOf cs x).filter (fun b => ready.contains b)).length : Int) ≤ np x := by
    intro x
    rw [inv.np_eq x]
    have hmono := length_filter_le_of_imp (depsOf cs x)
      (fun b => ready.contains b) (fun b => !(em.contains b)) (by
        intro a _ ha
        have ha' : ready.contains a = true := ha
        show (!(em.contains a)) = true
        rw [show (em.contains a) = false from
          (contains_eq_false_iff _ _).mpr (hdisj a ((contains_iff _ _).mp ha'))]
        rfl)
    simp only [pendingDeps]
    exact_mod_cast hmono
  have hsplit : ∀ x, (kahnStep (succsOf (buildSorter cs)) ready np).1 x =
      ((pendingDeps cs (em ++ ready) x).length : Int) := by
    intro x
    rw [hnp', hcount, inv.np_eq x]
    simp only [pendingDeps]
    have hs := length_filter_split (depsOf cs x) em ready hdisj
    omega
  have hemz : ∀ x ∈ em, np x = 0 := by
    intro x hx
    rw [inv.np_eq x, pendingDeps_eq_nil_of_closed cs em x
      (topoOrdered_closed cs em inv.ordered x hx)]
    rfl
  have hrdz : ∀ x ∈ ready, np x = 0 := by
    intro x hx
    rw [inv.np_eq x, pendingDeps_eq_nil_of_closed cs em x (inv.rd_deps x hx)]
    rfl
  refine ⟨?_, ?_, ?_, ?_, ?_, ?_, ?_, ?_, ?_⟩
  · rw [List.nodup_append]
    exact ⟨inv.em_nodup, inv.rd_nodup, fun a ha hb => inv.disj a hb ha⟩
  · unfold kahnStep
    exact doneDec_nodup _ _
  · intro x hx
    obtain ⟨h1, _⟩ := (hmem x).mp hx
    intro hmem'
    rcases List.mem_append.mp hmem' with h | h
    · rw [hemz x h] at h1
      omega
    · rw [hrdz x h] at h1
      omega
  · intro x hx
    rcases List.mem_append.mp hx with h | h
    · exact inv.em_keys x h
    · exact inv.rd_keys x h
  · intro x hx
    obtain ⟨h1, _⟩ := (hmem x).mp hx
    rw [inv.np_eq x] at h1
    have hne : pendingDeps cs em x ≠ [] := by
      intro hnil
      rw [hnil] at h1
      simp at h1
    obtain ⟨b, hb⟩ := List.exists_mem_of_ne_nil _ hne
    obtain ⟨hb1, _⟩ := (mem_pendingDeps cs em x b).mp hb
    obtain ⟨p, hp, hpx⟩ := exists_entry_of_depsOf_ne_nil cs x
      (fun hnil => by rw [hnil] at hb1; cases hb1)
    exact (mem_keysOf_buildSorter cs x).mpr (Or.inl ⟨p, hp, hpx⟩)
  · exact hsplit
  · intro x hx b hb
    obtain ⟨h1, h2⟩ := (hmem x).mp hx
    have heq : np x = ((ready.flatMap (succsOf (buildSorter cs))).count x : Int) := by
      have hle' := hle x
      rw [← hcount x] at hle'
      omega
    have hz : (kahnStep (succsOf (buildSorter cs)) ready np).1 x = 0 := by
      rw [hnp' x]
      omega
    rw [hsplit x] at hz
    have hnil : pendingDeps cs (em ++ ready) x = [] :=
      List.length_eq_zero.mp (by exact_mod_cast hz)
    by_contra hbe
    have hbm : b ∈ pendingDeps cs (em ++ ready) x :=
      (mem_pendingDeps _ _ _ _).mpr ⟨hb, hbe⟩
    rw [hnil] at hbm
    cases hbm
  · intro x hxk hxe hdeps
    by_cases hsub : ∀ b ∈ depsOf cs x, b ∈ em
    · exact absurd
        (List.mem_append.mpr (Or.inr (inv.complete x hxk
          (fun hxm => hxe (List.mem_append.mpr (Or.inl hxm))) hsub))) hxe
    · push_neg at hsub
      obtain ⟨b0, hb01, hb02⟩ := hsub
      apply (hmem x).mpr
      constructor
      · rw [inv.np_eq x]
        have hbm : b0 ∈ pendingDeps cs em x :=
          (mem_pendingDeps _ _ _ _).mpr ⟨hb01, hb02⟩
        have hpos : 0 < (pendingDeps cs em x).length :=
          List.length_pos.mpr (fun hnil => by rw [hnil] at hbm; cases hbm)
        omega
      · rw [hcount, inv.np_eq x]
        have hmono := length_filter_le_of_imp (depsOf cs x)
          (fun b => !(em.contains b)) (fun b => ready.contains b) (by
            intro a ha hpa
            have hpa' : (!(em.contains a)) = true := hpa
            have hnotem : a ∉ em := by
              have hf : (em.contains a) = false := by
                cases hc : em.contains a
                · rfl
                · rw [hc] at hpa'
                  cases hpa'
              exact (contains_eq_false_iff _ _).mp hf
            rcases List.mem_append.mp (hdeps a ha) with h | h
            · exact absurd h hnotem
            · show (ready.contains a) = true
              exact (contains_iff _ _).mpr h)
        simp only [pendingDeps]
        exact_mod_cast hmono
  · exact topoOrdered_append cs em ready inv.ordered inv.rd_deps

/-- In an acyclic graph there is no "blocked" configuration: if every
non-emitted node still has a non-emitted dependency, iterating "pick a
non-emitted dependency" through the finitely many nodes must revisit one,
tracing a dependency cycle. -/
theorem keys_subset_emitted_of_blocked (cs : List (String × List String))
    (hac : Acyclic cs) (em : List String)
    (hblocked : ∀ x ∈ keysOf (buildSorter cs), x ∉ em →
      ∃ b, b ∈ depsOf cs x ∧ b ∉ em) :
    ∀ x ∈ keysOf (buildSorter cs), x ∈ em := by
  by_contra hc
  push_neg at hc
  obtain ⟨x0, hx0k, hx0e⟩ := hc
  have next : ∀ s : {x : String // x ∈ keysOf (buildSorter cs) ∧ x ∉ em},
      ∃ b : {x : String // x ∈ keysOf (buildSorter cs) ∧ x ∉ em},
        b.val ∈ depsOf cs s.val := by
    rintro ⟨x, hxk, hxe⟩
    obtain ⟨b, hb1, hb2⟩ := hblocked x hxk hxe
    exact ⟨⟨b, mem_keys_of_mem_depsOf cs x b hb1, hb2⟩, hb1⟩
  choose F hF using next
  have hstep : ∀ n, (F^[n + 1] ⟨x0, hx0k, hx0e⟩).val ∈
      depsOf cs (F^[n] ⟨x0, hx0k, hx0e⟩).val := by
    intro n
    rw [Function.iterate_succ_apply']
    exact hF _
  have hedge : ∀ n, DepEdge cs (F^[n] ⟨x0, hx0k, hx0e⟩).val
      (F^[n + 1] ⟨x0, hx0k, hx0e⟩).val :=
    fun n => depEdge_of_mem_depsOf cs _ _ (hstep n)
  have htrans : ∀ j i, i < j → Relation.TransGen (DepEdge cs)
      (F^[i] ⟨x0, hx0k, hx0e⟩).val (F^[j] ⟨x0, hx0k, hx0e⟩).val := by
    intro j
    induction j with
    | zero =>
      intro i h
      omega
    | succ j ihj =>
      intro i h
      rcases Nat.lt_succ_iff_lt_or_eq.mp h with h2 | h2
      · exact (ihj i h2).tail (hedge j)
      · subst h2
        exact Relation.TransGen.single (hedge i)
  have hmaps : ∀ n ∈ Finset.range ((keysOf (buildSorter cs)).length + 1),
      (F^[n] ⟨x0, hx0k, hx0e⟩).val ∈ (keysOf (buildSorter cs)).toFinset := by
    intro n _
    exact List.mem_toFinset.mpr (F^[n] ⟨x0, hx0k, hx0e⟩).property.1
  have hcard : ((keysOf (buildSorter cs)).toFinset).card <
      (Finset.range ((keysOf (buildSorter cs)).length + 1)).card := by
    rw [Finset.card_range]
    have := (keysOf (buildSorter cs)).toFinset_card_le
    omega
  obtain ⟨i, _, j, _, hne, heq⟩ :=
    Finset.exists_ne_map_eq_of_card_lt_of_maps_to hcard hmaps
  rcases Nat.lt_or_ge i j with h | h
  · have ht := htrans j i h
    rw [← heq] at ht
    exact hac _ ht
  · have hlt : j < i := by omega
    have ht := htrans i j hlt
    rw [heq] at ht
    exact hac _ ht

/-- The Kahn loop of `static_order`, with enough fuel, from any invariant
state of an acyclic graph: it terminates normally and the total emission
is a duplicate-free topological order covering every node. -/
theorem kahnRun_spec (cs : List (String × List String))
    (hn : (cs.map Prod.fst).Nodup) (hac : Acyclic cs) :
    ∀ (fuel : Nat) (em ready : List String) (np : String → Int),
    KahnInv cs em ready np →
    (keysOf (buildSorter cs)).length < fuel + em.length →
    ∃ out, kahnRun (succsOf (buildSorter cs)) fuel np ready = some out ∧
      (em ++ out).Nodup ∧ TopoOrdered cs (em ++ out) ∧
      (∀ x ∈ keysOf (buildSorter cs), x ∈ em ++ out) ∧
      (∀ x ∈ out, x ∈ keysOf (buildSorter cs)) := by
  intro fuel
  induction fuel with
  | zero =>
    intro em ready np inv hbound
    exfalso
    have hsub : em.toFinset ⊆ (keysOf (buildSorter cs)).toFinset := by
      intro a ha
      exact List.mem_toFinset.mpr (inv.em_keys a (List.mem_toFinset.mp ha))
    have h1 : em.toFinset.card = em.length := List.toFinset_card_of_nodup inv.em_nodup
    have h2 := Finset.card_le_card hsub
    have h3 := (keysOf (buildSorter cs)).toFinset_card_le
    omega
  | succ fuel ih =>
    intro em ready np inv hbound
    rcases ready with _ | ⟨r, rs⟩
    · refine ⟨[], rfl, by simpa using inv.em_nodup,
        by simpa using inv.ordered, ?_, by simp⟩
      intro x hx
      rw [List.append_nil]
      refine keys_subset_emitted_of_blocked cs hac em ?_ x hx
      intro y hyk hye
      by_contra hcon
      push_neg at hcon
      have := inv.complete y hyk hye (fun b hb => hcon b hb)
      cases this
    · have inv' := kahnInv_step cs hn em (r :: rs) np inv
      have hbound' : (keysOf (buildSorter cs)).length <
          fuel + (em ++ r :: rs).length := by
        rw [List.length_append, List.length_cons]
        omega
      obtain ⟨out, hrun, hnodup, hord, hcov, hsub⟩ :=
        ih (em ++ (r :: rs)) (kahnStep (succsOf (buildSorter cs)) (r :: rs) np).2
          (kahnStep (succsOf (buildSorter cs)) (r :: rs) np).1 inv' hbound'
      refine ⟨(r :: rs) ++ out, ?_, ?_, ?_, ?_, ?_⟩
      · simp only [kahnRun]
        rw [hrun]
        rfl
      · rw [← List.append_assoc]
        exact hnodup
      · rw [← List.append_assoc]
        exact hord
      · intro x hx
        rw [← List.append_assoc]
        exact hcov x hx
      · intro x hx
        rcases List.mem_append.mp hx with h | h
        · exact inv.rd_keys x h
        · exact hsub x h

/-- On an acyclic input with distinct crate names, the Kahn phase of
`static_order` (run with the fuel `staticOrder` provides) produces a
duplicate-free topological order over exactly the graph's nodes. -/
theorem kahn_complete (cs : List (String × List String))
    (hn : (cs.map Prod.fst).Nodup) (hac : Acyclic cs) :
    ∃ out, kahnRun (succsOf (buildSorter cs)) ((buildSorter cs).length + 1)
        (npredOf (buildSorter cs)) (readyInit (buildSorter cs)) = some out ∧
      out.Nodup ∧ TopoOrdered cs out ∧
      (∀ x ∈ keysOf (buildSorter cs), x ∈ out) ∧
      (∀ x ∈ out, x ∈ keysOf (buildSorter cs)) := by
  have hkeys : (keysOf (buildSorter cs)).length = (buildSorter cs).length := by
    unfold keysOf
    exact List.length_map _ _
  obtain ⟨out, hrun, hnodup, hord, hcov, hsub⟩ :=
    kahnRun_spec cs hn hac ((buildSorter cs).length + 1) [] (readyInit (buildSorter cs))
      (npredOf (buildSorter cs)) (kahnInv_init cs hn) (by omega)
  exact ⟨out, hrun, by simpa using hnodup, by simpa using hord,
    fun x hx => by simpa using hcov x hx, hsub⟩

/-! ## The DFS of `_find_cycle`: soundness of the returned cycle -/

/-- Dropping up to a member leaves that member in front. -/
theorem dropWhile_ne_eq_cons (w : String) :
    ∀ (l : List String), w ∈ l →
    ∃ t, l.dropWhile (fun v => v != w) = w :: t := by
  intro l
  induction l with
  | nil => intro h; cases h
  | cons a rest ih =>
    intro h
    by_cases ha : a = w
    · subst ha
      refine ⟨rest, ?_⟩
      rw [List.dropWhile_cons_of_neg]
      simp
    · rw [List.dropWhile_cons_of_pos (by simpa using ha)]
      exact ih (by
        rcases List.mem_cons.mp h with h1 | h1
        · exact absurd h1.symm ha
        · exact h1)

/-- The cycle value the source returns is a genuine closed successor
walk: it starts and ends at the revisited node, and consecutive entries
are successor links. -/
theorem popCycle_spec (succs : String → List String) (v : String)
    (vs : List String) (w : String) (hw : w ∈ v :: vs)
    (hchain : List.Chain' (fun a b => a ∈ succs b) (v :: vs))
    (hwv : w ∈ succs v) :
    SuccClosedChain succs (popCycle (v :: vs) w) := by
  unfold popCycle
  have hwrev : w ∈ (v :: vs).reverse := List.mem_reverse.mpr hw
  obtain ⟨t, hd⟩ := dropWhile_ne_eq_cons w _ hwrev
  have hchainrev : List.Chain' (fun a b => b ∈ succs a) ((v :: vs).reverse) := by
    rw [List.chain'_reverse]
    exact hchain
  have hsuffix : List.Chain' (fun a b => b ∈ succs a)
      ((v :: vs).reverse.dropWhile (fun v => v != w)) := by
    have hsplit := List.takeWhile_append_dropWhile
      (p := fun v => v != w) (l := (v :: vs).reverse)
    rw [← hsplit] at hchainrev
    exact hchainrev.right_of_append
  have hlast : ((v :: vs).reverse.dropWhile (fun v => v != w)).getLast? = some v := by
    have hne : (v :: vs).reverse.dropWhile (fun v => v != w) ≠ [] := by
      rw [hd]
      simp
    have hsplit := List.takeWhile_append_dropWhile
      (p := fun v => v != w) (l := (v :: vs).reverse)
    have := List.getLast?_append_of_ne_nil
      ((v :: vs).reverse.takeWhile (fun v => v != w)) hne
    rw [hsplit] at this
    rw [← this, List.getLast?_reverse]
    rfl
  refine ⟨?_, ?_, ?_⟩
  · rw [hd]
    simp
  · rw [hd]
    simp only [List.cons_append, List.head?_cons]
    rw [show w :: (t ++ [w]) = (w :: t) ++ [w] from rfl, List.getLast?_concat]
  · rw [List.chain'_append]
    refine ⟨hsuffix, List.chain'_singleton w, ?_⟩
    intro x hx y hy
    simp only [List.head?_cons, Option.mem_def, Option.some.injEq] at hy
    rw [hlast] at hx
    simp only [Option.mem_def, Option.some.injEq] at hx
    subst hx
    subst hy
    exact hwv

/-- Popping an exhausted frame preserves the DFS invariant; the popped
node joins the finish list, all its successors already finished. -/
theorem dfsInv_pop (succs : String → List String) (keys : List String)
    (v : String) (vs : List String) (fss : List (List String))
    (seen fin : List String)
    (inv : DfsInv succs keys (v :: vs) ([] :: fss) seen fin) :
    DfsInv succs keys vs fss seen (fin ++ [v]) := by
  obtain ⟨len_eq, snd, sseen, skeys, chain, fsp, siff, fnd, ffr, fgood⟩ := inv
  have hvfin : v ∉ fin := fun hv => ffr v hv (List.mem_cons_self _ _)
  have hvseen : v ∈ seen := sseen v (List.mem_cons_self _ _)
  have hvvs : v ∉ vs := (List.nodup_cons.mp snd).1
  refine ⟨?_, ?_, ?_, skeys, ?_, ?_, ?_, ?_, ?_, ?_⟩
  · simpa using len_eq
  · exact (List.nodup_cons.mp snd).2
  · exact fun x hx => sseen x (List.mem_cons_of_mem _ hx)
  · exact chain.tail
  · intro i h1 h2
    obtain ⟨pre, hpre, hcond⟩ := fsp (i + 1) (by simpa using Nat.succ_lt_succ h1)
      (by simpa using Nat.succ_lt_succ h2)
    refine ⟨pre, ?_, ?_⟩
    · simpa using hpre
    · intro w hwp
      obtain ⟨hc1, hc2⟩ := hcond w hwp
      refine ⟨hc1, ?_⟩
      rw [List.drop_succ_cons] at hc2
      exact hc2
  · intro x
    rw [siff x]
    simp only [List.mem_append, List.mem_singleton, List.mem_cons]
    tauto
  · rw [List.nodup_append]
    refine ⟨fnd, List.nodup_singleton v, ?_⟩
    intro a ha hb
    rw [List.mem_singleton] at hb
    subst hb
    exact hvfin ha
  · intro x hx
    rcases List.mem_append.mp hx with h | h
    · exact fun hc => ffr x h (List.mem_cons_of_mem _ hc)
    · rw [List.mem_singleton] at h
      subst h
      exact hvvs
  · intro i h w hw
    rw [List.length_append, List.length_singleton] at h
    by_cases hi : i < fin.length
    · have hget : (fin ++ [v]).get ⟨i, by rw [List.length_append]; omega⟩ =
          fin.get ⟨i, hi⟩ := List.get_append i hi
      rw [hget] at hw
      have := fgood i hi w hw
      rw [List.take_append_eq_append_take]
      exact List.mem_append.mpr (Or.inl this)
    · have hieq : i = fin.length := by omega
      subst hieq
      have hget : (fin ++ [v]).get ⟨fin.length, by simp⟩ = v := by
        rw [List.get_append_right _ _ (by omega)] <;> simp
      rw [hget] at hw
      obtain ⟨pre, hpre, hcond⟩ := fsp 0 (by simp) (by simp)
      simp only [List.get] at hpre
      rw [List.append_nil] at hpre
      have hwpre : w ∈ pre := by
        rw [← hpre]
        exact hw
      obtain ⟨hc1, hc2⟩ := hcond w hwpre
      rw [List.drop_zero] at hc2
      have hwfin : w ∈ fin := by
        rcases (siff w).mp hc1 with h | h
        · exact h
        · exact absurd h hc2
      rw [List.take_left]
      exact hwfin

/-- Skipping an already-seen, off-stack successor preserves the DFS
invariant: it merely moves from the top frame into its processed prefix. -/
theorem dfsInv_skip (succs : String → List String) (keys : List String)
    (v : String) (vs : List String) (w : String) (ws' : List String)
    (fss : List (List String)) (seen fin : List String)
    (inv : DfsInv succs keys (v :: vs) ((w :: ws') :: fss) seen fin)
    (hwseen : w ∈ seen) (hwstack : w ∉ v :: vs) :
    DfsInv succs keys (v :: vs) (ws' :: fss) seen fin := by
  obtain ⟨len_eq, snd, sseen, skeys, chain, fsp, siff, fnd, ffr, fgood⟩ := inv
  refine ⟨by simpa using len_eq, snd, sseen, skeys, chain, ?_, siff, fnd, ffr, fgood⟩
  intro i h1 h2
  match i with
  | 0 =>
    obtain ⟨pre, hpre, hcond⟩ := fsp 0 (by simp) (by simp)
    refine ⟨pre ++ [w], ?_, ?_⟩
    · simp only [List.get] at hpre ⊢
      rw [hpre]
      simp
    · intro u hu
      rcases List.mem_append.mp hu with h | h
      · exact hcond u h
      · rw [List.mem_singleton] at h
        subst h
        rw [List.drop_zero]
        exact ⟨hwseen, hwstack⟩
  | i + 1 =>
    obtain ⟨pre, hpre, hcond⟩ := fsp (i + 1) h1 (by simpa using h2)
    refine ⟨pre, ?_, hcond⟩
    simp only [List.get] at hpre ⊢
    exact hpre

/-- Pushing an unseen successor preserves the DFS invariant: the new node
gets a fresh frame, and it becomes the processed head of the old top
frame. -/
theorem dfsInv_push (succs : String → List String) (keys : List String)
    (v : String) (vs : List String) (w : String) (ws' : List String)
    (fss : List (List String)) (seen fin : List String)
    (inv : DfsInv succs keys (v :: vs) ((w :: ws') :: fss) seen fin)
    (hwseen : w ∉ seen) (hwkeys : w ∈ keys) :
    DfsInv succs keys (w :: v :: vs) (succs w :: ws' :: fss) (w :: seen) fin := by
  obtain ⟨len_eq, snd, sseen, skeys, chain, fsp, siff, fnd, ffr, fgood⟩ := inv
  have hwv : w ∈ succs v := by
    obtain ⟨pre, hpre, _⟩ := fsp 0 (by simp) (by simp)
    simp only [List.get] at hpre
    rw [hpre]
    exact List.mem_append.mpr (Or.inr (List.mem_cons_self _ _))
  have hwstack : w ∉ v :: vs := fun hc => hwseen (sseen w hc)
  refine ⟨by simpa using len_eq, ?_, ?_, ?_, ?_, ?_, ?_, fnd, ?_, fgood⟩
  · rw [List.nodup_cons]
    exact ⟨hwstack, snd⟩
  · intro x hx
    rcases List.mem_cons.mp hx with rfl | hx
    · exact List.mem_cons_self _ _
    · exact List.mem_cons_of_mem _ (sseen x hx)
  · intro x hx
    rcases List.mem_cons.mp hx with rfl | hx
    · exact hwkeys
    · exact skeys x hx
  · rw [List.chain'_cons]
    exact ⟨hwv, chain⟩
  · intro i h1 h2
    match i with
    | 0 =>
      refine ⟨[], by simp, by simp⟩
    | 1 =>
      obtain ⟨pre, hpre, hcond⟩ := fsp 0 (by simp) (by simp)
      refine ⟨pre ++ [w], ?_, ?_⟩
      · simp only [List.get] at hpre ⊢
        rw [hpre]
        simp
      · intro u hu
        rcases List.mem_append.mp hu with h | h
        · obtain ⟨hc1, hc2⟩ := hcond u h
          rw [List.drop_zero] at hc2
          exact ⟨List.mem_cons_of_mem _ hc1, by simpa using hc2⟩
        · rw [List.mem_singleton] at h
          subst h
          exact ⟨List.mem_cons_self _ _, by simpa using hwstack⟩
    | i + 2 =>
      obtain ⟨pre, hpre, hcond⟩ := fsp (i + 1) (by simpa using h1) (by simpa using h2)
      refine ⟨pre, ?_, ?_⟩
      · simp only [List.get] at hpre ⊢
        exact hpre
      · intro u hu
        obtain ⟨hc1, hc2⟩ := hcond u hu
        refine ⟨List.mem_cons_of_mem _ hc1, ?_⟩
        rw [List.drop_succ_cons] at hc2
        simpa using hc2
  · intro x
    constructor
    · intro hx
      rcases List.mem_cons.mp hx with rfl | hx
      · exact Or.inr (List.mem_cons_self _ _)
      · rcases (siff x).mp hx with h | h
        · exact Or.inl h
        · exact Or.inr (List.mem_cons_of_mem _ h)
    · intro hx
      rcases hx with h | h
      · exact List.mem_cons_of_mem _ ((siff x).mpr (Or.inl h))
      · rcases List.mem_cons.mp h with rfl | h
        · exact List.mem_cons_self _ _
        · exact List.mem_cons_of_mem _ ((siff x).mpr (Or.inr h))
  · intro x hx
    intro hc
    rcases List.mem_cons.mp hc with rfl | hc
    · exact hwseen ((siff x).mpr (Or.inl hx))
    · exact ffr x hx hc

/-- Seeing a new node removes exactly its contribution from the unseen
potential. -/
theorem unseenPot_cons_unseen (succs : String → List String) :
    ∀ (keys : List String) (seen : List String) (w : String),
    keys.Nodup → w ∈ keys → w ∉ seen →
    unseenPot succs keys (w :: seen) + ((succs w).length + 1) =
      unseenPot succs keys seen := by
  intro keys
  induction keys with
  | nil =>
    intro seen w _ hw _
    cases hw
  | cons k rest ih =>
    intro seen w hnd hw hws
    obtain ⟨hk, hnd'⟩ := List.nodup_cons.mp hnd
    unfold unseenPot
    simp only [List.filter_cons]
    by_cases hkw : k = w
    · subst hkw
      have h1 : ((k :: seen).contains k) = true := by
        rw [contains_iff]
        exact List.mem_cons_self _ _
      have h2 : (seen.contains k) = false := (contains_eq_false_iff _ _).mpr hws
      rw [h1, h2]
      have hrest : rest.filter (fun x => !((k :: seen).contains x)) =
          rest.filter (fun x => !(seen.contains x)) := by
        apply List.filter_congr
        intro x hx
        have hxk : (x == k) = false := by
          simp only [beq_eq_false_iff_ne, ne_eq]
          exact fun hh => hk (hh ▸ hx)
        rw [List.contains_cons, hxk]
        simp
      rw [hrest]
      simp
      omega
    · have h1 : ((w :: seen).contains k) = (seen.contains k) := by
        rw [List.contains_cons]
        have : (k == w) = false := by simpa using hkw
        rw [this]
        simp
      have hwrest : w ∈ rest := by
        rcases List.mem_cons.mp hw with h | h
        · exact absurd h.symm hkw
        · exact h
      have ihr := ih seen w hnd' hwrest hws
      unfold unseenPot at ihr
      rw [h1]
      cases hsk : seen.contains k
      · simp only [Bool.not_false, if_true, List.map_cons, List.sum_cons]
        omega
      · simp only [Bool.not_true, Bool.false_eq_true, if_false]
        omega

/-- One DFS step decreases the measure: popping a frame. -/
theorem dfsMeasure_pop (succs : String → List String) (keys : List String)
    (fss : List (List String)) (seen : List String) :
    dfsMeasure succs keys ([] :: fss) seen =
      dfsMeasure succs keys fss seen + 1 := by
  unfold dfsMeasure
  simp only [List.map_cons, List.sum_cons, List.length_cons, List.length_nil]
  omega

/-- One DFS step decreases the measure: consuming a successor occurrence. -/
theorem dfsMeasure_skip (succs : String → List String) (keys : List String)
    (w : String) (ws' : List String) (fss : List (List String))
    (seen : List String) :
    dfsMeasure succs keys ((w :: ws') :: fss) seen =
      dfsMeasure succs keys (ws' :: fss) seen + 1 := by
  unfold dfsMeasure
  simp only [List.map_cons, List.sum_cons, List.length_cons]
  omega

/-- One DFS step decreases the measure: pushing an unseen node. -/
theorem dfsMeasure_push (succs : String → List String) (keys : List String)
    (w : String) (ws' : List String) (fss : List (List String))
    (seen : List String) (hnd : keys.Nodup) (hw : w ∈ keys) (hws : w ∉ seen) :
    dfsMeasure succs keys ((w :: ws') :: fss) seen =
      dfsMeasure succs keys (succs w :: ws' :: fss) (w :: seen) + 1 := by
  unfold dfsMeasure
  have hpot := unseenPot_cons_unseen succs keys seen w hnd hw hws
  simp only [List.map_cons, List.sum_cons, List.length_cons]
  omega

/-- Full specification of one root's DFS loop: the seen set only grows; a
returned cycle is a genuine closed successor walk; and a `none` return
re-establishes the invariant with an empty stack (all work finished). -/
theorem dfsLoop_spec (succs : String → List String) (keys : List String)
    (hknd : keys.Nodup) (hsucc : ∀ x w, w ∈ succs x → w ∈ keys) :
    ∀ (fuel : Nat) (rstack : List String) (frames : List (List String))
      (seen fin : List String),
    DfsInv succs keys rstack frames seen fin →
    dfsMeasure succs keys frames seen < fuel →
    (∀ x ∈ seen, x ∈ (dfsLoop succs fuel rstack frames seen fin).2.1) ∧
    (∀ cyc, (dfsLoop succs fuel rstack frames seen fin).1 = some cyc →
      SuccClosedChain succs cyc) ∧
    ((dfsLoop succs fuel rstack frames seen fin).1 = none →
      DfsInv succs keys [] []
        (dfsLoop succs fuel rstack frames seen fin).2.1
        (dfsLoop succs fuel rstack frames seen fin).2.2) := by
  intro fuel
  induction fuel with
  | zero =>
    intro rstack frames seen fin _ hb
    omega
  | succ fuel ih =>
    intro rstack frames seen fin inv hb
    rcases rstack with _ | ⟨v, vs⟩
    · have hframes : frames = [] :=
        List.length_eq_zero.mp inv.len_eq.symm
      subst hframes
      have heq : dfsLoop succs (fuel + 1) [] [] seen fin = (none, seen, fin) := rfl
      rw [heq]
      exact ⟨fun x hx => hx, fun cyc hc => by simp at hc, fun _ => inv⟩
    · rcases hframes : frames with _ | ⟨ws, fss⟩
      · exfalso
        rw [hframes] at inv
        have := inv.len_eq
        simp at this
      · subst hframes
        rcases ws with _ | ⟨w, ws'⟩
        · -- pop
          have heq : dfsLoop succs (fuel + 1) (v :: vs) ([] :: fss) seen fin =
              dfsLoop succs fuel vs fss seen (fin ++ [v]) := rfl
          rw [heq]
          have inv' := dfsInv_pop succs keys v vs fss seen fin inv
          have hb' : dfsMeasure succs keys fss seen < fuel := by
            have := dfsMeasure_pop succs keys fss seen
            omega
          exact ih vs fss seen (fin ++ [v]) inv' hb'
        · by_cases hseen : w ∈ seen
          · by_cases hstack : w ∈ v :: vs
            · -- cycle found
              have heq : dfsLoop succs (fuel + 1) (v :: vs) ((w :: ws') :: fss) seen fin =
                  (some (popCycle (v :: vs) w), seen, fin) := by
                simp only [dfsLoop]
                rw [if_pos hseen, if_pos hstack]
              rw [heq]
              refine ⟨fun x hx => hx, ?_, fun hc => by simp at hc⟩
              intro cyc hc
              have hcyc : popCycle (v :: vs) w = cyc := by
                injection hc
              subst hcyc
              have hwv : w ∈ succs v := by
                obtain ⟨pre, hpre, _⟩ := inv.frames_spec 0 (by simp) (by simp)
                simp only [List.get] at hpre
                rw [hpre]
                exact List.mem_append.mpr (Or.inr (List.mem_cons_self _ _))
              exact popCycle_spec succs v vs w hstack inv.chain hwv
            · -- skip
              have heq : dfsLoop succs (fuel + 1) (v :: vs) ((w :: ws') :: fss) seen fin =
                  dfsLoop succs fuel (v :: vs) (ws' :: fss) seen fin := by
                simp only [dfsLoop]
                rw [if_pos hseen, if_neg hstack]
              rw [heq]
              have inv' := dfsInv_skip succs keys v vs w ws' fss seen fin inv hseen hstack
              have hb' : dfsMeasure succs keys (ws' :: fss) seen < fuel := by
                have := dfsMeasure_skip succs keys w ws' fss seen
                omega
              exact ih (v :: vs) (ws' :: fss) seen fin inv' hb'
          · -- push
            have hwv : w ∈ succs v := by
              obtain ⟨pre, hpre, _⟩ := inv.frames_spec 0 (by simp) (by simp)
              simp only [List.get] at hpre
              rw [hpre]
              exact List.mem_append.mpr (Or.inr (List.mem_cons_self _ _))
            have hwkeys : w ∈ keys := hsucc v w hwv
            have heq : dfsLoop succs (fuel + 1) (v :: vs) ((w :: ws') :: fss) seen fin =
                dfsLoop succs fuel (w :: v :: vs) (succs w :: ws' :: fss) (w :: seen) fin := by
              simp only [dfsLoop]
              rw [if_neg hseen]
            rw [heq]
            have inv' := dfsInv_push succs keys v vs w ws' fss seen fin inv hseen hwkeys
            have hb' : dfsMeasure succs keys (succs w :: ws' :: fss) (w :: seen) < fuel := by
              have := dfsMeasure_push succs keys w ws' fss seen hknd hwkeys hseen
              omega
            obtain ⟨hmono, hcyc, hnone⟩ :=
              ih (w :: v :: vs) (succs w :: ws' :: fss) (w :: seen) fin inv' hb'
            exact ⟨fun x hx => hmono x (List.mem_cons_of_mem _ hx), hcyc, hnone⟩

/-- The unseen potential is at most the total potential of all nodes. -/
theorem unseenPot_le_total (succs : String → List String) :
    ∀ (keys seen : List String),
    unseenPot succs keys seen ≤ (keys.map (fun k => (succs k).length + 1)).sum := by
  intro keys
  induction keys with
  | nil =>
    intro seen
    simp [unseenPot]
  | cons k rest ih =>
    intro seen
    unfold unseenPot at ih ⊢
    simp only [List.filter_cons, List.map_cons, List.sum_cons]
    cases hc : (!(seen.contains k))
    · simp only [Bool.false_eq_true, if_false]
      have := ih seen
      omega
    · simp only [if_true]
      simp only [List.map_cons, List.sum_cons]
      have := ih seen
      omega

/-- The fold computing `dfsFuel` is the total potential plus one. -/
theorem dfsFuel_eq (l : N2I) :
    dfsFuel l = (l.map (fun p => p.2.successors.length + 1)).sum + 1 := by
  unfold dfsFuel
  have haux : ∀ (l : N2I) (n0 : Nat),
      l.foldl (fun n p => n + p.2.successors.length + 1) n0 =
        n0 + (l.map (fun p => p.2.successors.length + 1)).sum := by
    intro l
    induction l with
    | nil =>
      intro n0
      simp
    | cons p rest ih =>
      intro n0
      rw [List.foldl_cons, ih, List.map_cons, List.sum_cons]
      omega
  rw [haux]
  omega

/-- Per-key potentials agree with per-entry potentials when keys are
duplicate-free. -/
theorem keys_pot_eq (l : N2I) (hnd : (keysOf l).Nodup) :
    (keysOf l).map (fun k => (succsOf l k).length + 1) =
      l.map (fun p => p.2.successors.length + 1) := by
  unfold keysOf
  rw [List.map_map]
  apply List.map_congr_left
  intro p hp
  show (succsOf l p.1).length + 1 = p.2.successors.length + 1
  unfold succsOf
  rw [infoOf_of_mem_nodup l hnd p.1 p.2 (by rcases p with ⟨a, b⟩; exact hp)]

/-- The outer root loop of `_find_cycle`: any returned value is a genuine
closed successor walk, and a `none` return means every root was fully
explored into a finish order satisfying the DFS invariant. -/
theorem findCycleGo_spec (succs : String → List String) (keys : List String)
    (hknd : keys.Nodup) (hsucc : ∀ x w, w ∈ succs x → w ∈ keys)
    (fuel : Nat)
    (hfuel : (keys.map (fun k => (succs k).length + 1)).sum < fuel) :
    ∀ (roots seen fin : List String),
    (∀ r ∈ roots, r ∈ keys) →
    DfsInv succs keys [] [] seen fin →
    (∀ cyc, findCycleGo succs fuel roots seen fin = some cyc →
      SuccClosedChain succs cyc) ∧
    (findCycleGo succs fuel roots seen fin = none →
      ∃ seen' fin', DfsInv succs keys [] [] seen' fin' ∧
        (∀ x ∈ seen, x ∈ seen') ∧ (∀ r ∈ roots, r ∈ seen')) := by
  intro roots
  induction roots with
  | nil =>
    intro seen fin _ inv
    refine ⟨fun cyc hc => by simp [findCycleGo] at hc, fun _ => ?_⟩
    exact ⟨seen, fin, inv, fun x hx => hx, fun r hr => by cases hr⟩
  | cons k ks ih =>
    intro seen fin hroots inv
    have hkkeys : k ∈ keys := hroots k (List.mem_cons_self _ _)
    by_cases hk : k ∈ seen
    · have heq : findCycleGo succs fuel (k :: ks) seen fin =
          findCycleGo succs fuel ks seen fin := by
        simp only [findCycleGo]
        rw [if_pos hk]
      rw [heq]
      obtain ⟨hcyc, hnone⟩ := ih seen fin
        (fun r hr => hroots r (List.mem_cons_of_mem _ hr)) inv
      refine ⟨hcyc, fun hn => ?_⟩
      obtain ⟨seen', fin', inv', hmono, hcov⟩ := hnone hn
      refine ⟨seen', fin', inv', hmono, ?_⟩
      intro r hr
      rcases List.mem_cons.mp hr with rfl | hr
      · exact hmono r hk
      · exact hcov r hr
    · -- start a new DFS from this root
      have inv1 : DfsInv succs keys [k] [succs k] (k :: seen) fin := by
        obtain ⟨_, _, _, skeys, _, _, siff, fnd, _, fgood⟩ := inv
        have hkfin : k ∉ fin := fun hc => hk ((siff k).mpr (Or.inl hc))
        refine ⟨rfl, List.nodup_singleton k, ?_, ?_, List.chain'_singleton k,
          ?_, ?_, fnd, ?_, fgood⟩
        · intro x hx
          rw [List.mem_singleton] at hx
          subst hx
          exact List.mem_cons_self _ _
        · intro x hx
          rcases List.mem_cons.mp hx with rfl | hx
          · exact hkkeys
          · exact skeys x hx
        · intro i h1 h2
          match i with
          | 0 => exact ⟨[], by simp, by simp⟩
        · intro x
          constructor
          · intro hx
            rcases List.mem_cons.mp hx with rfl | hx
            · exact Or.inr (List.mem_cons_self _ _)
            · rcases (siff x).mp hx with h | h
              · exact Or.inl h
              · cases h
          · intro hx
            rcases hx with h | h
            · exact List.mem_cons_of_mem _ ((siff x).mpr (Or.inl h))
            · rw [List.mem_singleton] at h
              subst h
              exact List.mem_cons_self _ _
        · intro x hx
          intro hc
          rw [List.mem_singleton] at hc
          subst hc
          exact hkfin hx
      have hb : dfsMeasure succs keys [succs k] (k :: seen) < fuel := by
        unfold dfsMeasure
        have hpot := unseenPot_cons_unseen succs keys seen k hknd hkkeys hk
        have htot := unseenPot_le_total succs keys seen
        simp only [List.map_cons, List.sum_cons, List.map_nil, List.sum_nil,
          List.length_cons, List.length_nil]
        omega
      obtain ⟨hmono, hcyc, hnone⟩ :=
        dfsLoop_spec succs keys hknd hsucc fuel [k] [succs k] (k :: seen) fin inv1 hb
      rcases hres : dfsLoop succs fuel [k] [succs k] (k :: seen) fin with ⟨c, s', f'⟩
      rw [hres] at hmono hcyc hnone
      rcases c with _ | cyc0
      · have heq : findCycleGo succs fuel (k :: ks) seen fin =
            findCycleGo succs fuel ks s' f' := by
          simp only [findCycleGo]
          rw [if_neg hk, hres]
        rw [heq]
        have inv' := hnone rfl
        obtain ⟨hcyc2, hnone2⟩ := ih s' f'
          (fun r hr => hroots r (List.mem_cons_of_mem _ hr)) inv'
        refine ⟨hcyc2, fun hn => ?_⟩
        obtain ⟨seen2, fin2, inv2, hmono2, hcov2⟩ := hnone2 hn
        refine ⟨seen2, fin2, inv2, ?_, ?_⟩
        · intro x hx
          exact hmono2 x (hmono x (List.mem_cons_of_mem _ hx))
        · intro r hr
          rcases List.mem_cons.mp hr with rfl | hr
          · exact hmono2 r (hmono r (List.mem_cons_self _ _))
          · exact hcov2 r hr
      · have heq : findCycleGo succs fuel (k :: ks) seen fin = some cyc0 := by
          simp only [findCycleGo]
          rw [if_neg hk, hres]
        rw [heq]
        refine ⟨fun cyc hc => ?_, fun hn => by simp at hn⟩
        have hc0 : cyc0 = cyc := by injection hc
        subst hc0
        exact hcyc cyc0 rfl

/-- A nonempty relational chain yields a transitive-closure step to its
last element. -/
theorem transGen_of_chain (S : String → String → Prop) :
    ∀ (l : List String) (a : String), List.Chain S a l → (h : l ≠ []) →
    Relation.TransGen S a (l.getLast h) := by
  intro l
  induction l with
  | nil =>
    intro a _ h
    exact absurd rfl h
  | cons b l' ih =>
    intro a hchain _
    rw [List.chain_cons] at hchain
    obtain ⟨hab, hrest⟩ := hchain
    rcases l' with _ | ⟨c, l''⟩
    · simp only [List.getLast_singleton]
      exact Relation.TransGen.single hab
    · have hne : c :: l'' ≠ [] := by simp
      rw [List.getLast_cons hne]
      exact Relation.TransGen.head hab (ih b hrest hne)

/-- A closed successor walk of the built sorter traces a dependency
cycle: some node transitively depends on itself. -/
theorem isDepCycle_transGen (cs : List (String × List String))
    (c : List String) (hc : IsDepCycle cs c) :
    ∃ a, Relation.TransGen (DepEdge cs) a a := by
  obtain ⟨hlen, hheads, hchain⟩ := hc
  rcases c with _ | ⟨a, rest⟩
  · simp at hlen
  · have hrest : rest ≠ [] := by
      intro h
      subst h
      simp at hlen
    have hchain2 : List.Chain (fun x y => DepEdge cs y x) a rest := hchain
    have htg := transGen_of_chain _ rest a hchain2 hrest
    have hlast : rest.getLast hrest = a := by
      have h1 : (a :: rest).head? = some a := rfl
      have h2 : (a :: rest).getLast? = some ((a :: rest).getLast (by simp)) :=
        List.getLast?_eq_getLast _ _
      rw [h1, h2] at hheads
      have h3 : (a :: rest).getLast (by simp) = rest.getLast hrest :=
        List.getLast_cons hrest
      rw [h3] at hheads
      exact (Option.some.injEq .. ▸ hheads).symm
    rw [hlast] at htg
    refine ⟨a, ?_⟩
    exact (Relation.transGen_swap (r := DepEdge cs) (a := a) (b := a)).mp htg

/-! ## `_find_cycle` on the built sorter: soundness and completeness -/

/-- Both endpoints of a dependency edge are nodes of the built sorter. -/
theorem depEdge_mem_keys (cs : List (String × List String)) (x y : String)
    (h : DepEdge cs x y) :
    x ∈ keysOf (buildSorter cs) ∧ y ∈ keysOf (buildSorter cs) := by
  obtain ⟨p, hp, h1, h2⟩ := h
  constructor
  · exact (mem_keysOf_buildSorter cs x).mpr (Or.inl ⟨p, hp, h1⟩)
  · exact (mem_keysOf_buildSorter cs y).mpr (Or.inr ⟨p, hp, h2⟩)

/-- A dependency edge is a successor link of the built sorter. -/
theorem mem_succs_of_depEdge (cs : List (String × List String)) (x y : String)
    (h : DepEdge cs x y) : x ∈ succsOf (buildSorter cs) y := by
  obtain ⟨p, hp, h1, h2⟩ := h
  rw [succsOf_buildSorter]
  exact (mem_succsSpec cs y x).mpr ⟨p, hp, h1, h2⟩

/-- Successor lists of the built sorter point into its node list. -/
theorem succs_closed_buildSorter (cs : List (String × List String)) :
    ∀ x w, w ∈ succsOf (buildSorter cs) x → w ∈ keysOf (buildSorter cs) := by
  intro x w hw
  rw [succsOf_buildSorter] at hw
  exact mem_keys_of_mem_succsSpec cs x w hw

/-- The fuel `static_order` hands to the DFS covers the total potential. -/
theorem dfsFuel_sufficient (cs : List (String × List String)) :
    ((keysOf (buildSorter cs)).map
      (fun k => (succsOf (buildSorter cs) k).length + 1)).sum <
      dfsFuel (buildSorter cs) := by
  rw [keys_pot_eq _ (nodup_keysOf_buildSorter cs), dfsFuel_eq]
  omega

/-- The empty DFS state satisfies the invariant. -/
theorem dfsInv_empty (succs : String → List String) (keys : List String) :
    DfsInv succs keys [] [] [] [] := by
  refine ⟨rfl, List.nodup_nil, ?_, ?_, List.chain'_nil, ?_, ?_,
    List.nodup_nil, ?_, ?_⟩
  · intro x hx
    cases hx
  · intro x hx
    cases hx
  · intro i h1 _
    simp at h1
  · intro x
    simp
  · intro x hx
    cases hx
  · intro i h
    simp at h

/-- Soundness of `_find_cycle`: a returned value is a genuine dependency
cycle of the input crate list. -/
theorem findCycle_some_isDepCycle (cs : List (String × List String))
    (c : List String) (h : findCycle (buildSorter cs) = some c) :
    IsDepCycle cs c := by
  unfold findCycle at h
  obtain ⟨hcyc, _⟩ := findCycleGo_spec (succsOf (buildSorter cs))
    (keysOf (buildSorter cs)) (nodup_keysOf_buildSorter cs)
    (succs_closed_buildSorter cs) (dfsFuel (buildSorter cs))
    (dfsFuel_sufficient cs) (keysOf (buildSorter cs)) [] []
    (fun r hr => hr) (dfsInv_empty _ _)
  obtain ⟨hlen, hhd, hch⟩ := hcyc c h
  refine ⟨hlen, hhd, List.Chain'.imp ?_ hch⟩
  intro a b hab
  rw [succsOf_buildSorter] at hab
  exact (mem_succsSpec cs a b).mp hab

/-- Under a duplicate-free list, membership of a `take` prefix bounds the
index of first occurrence. -/
theorem indexOf_lt_of_mem_take (l : List String) (hl : l.Nodup) (x : String)
    (i : Nat) (hx : x ∈ l.take i) : l.indexOf x < i := by
  obtain ⟨j, hj, hget⟩ := List.mem_take_iff_getElem.mp hx
  have hjl : j < l.length := lt_of_lt_of_le hj (min_le_right _ _)
  have hxl : x ∈ l := by
    rw [← hget]
    exact List.getElem_mem hjl
  have hlt : l.indexOf x < l.length := List.indexOf_lt_length.mpr hxl
  have h1 : l.get ⟨l.indexOf x, hlt⟩ = x := List.indexOf_get hlt
  have h2 : l.get ⟨j, hjl⟩ = x := hget
  have heq : (⟨l.indexOf x, hlt⟩ : Fin l.length) = ⟨j, hjl⟩ :=
    (List.Nodup.get_inj_iff hl).mp (h1.trans h2.symm)
  have hval : l.indexOf x = j := congrArg Fin.val heq
  have : j < i := lt_of_lt_of_le hj (min_le_left _ _)
  omega

/-- The finish-order property turns a successor link into a strict index
decrease along the finish list. -/
theorem fin_edge_lt (succs : String → List String) (fin : List String)
    (hnd : fin.Nodup)
    (hgood : ∀ i (h : i < fin.length), ∀ w ∈ succs (fin.get ⟨i, h⟩),
      w ∈ fin.take i)
    (x y : String) (hy : y ∈ fin) (hx : x ∈ succs y) :
    fin.indexOf x < fin.indexOf y := by
  have hylt : fin.indexOf y < fin.length := List.indexOf_lt_length.mpr hy
  have hget : fin.get ⟨fin.indexOf y, hylt⟩ = y := List.indexOf_get hylt
  have hw := hgood (fin.indexOf y) hylt x (by rw [hget]; exact hx)
  exact indexOf_lt_of_mem_take fin hnd x _ hw

/-- Completeness of `_find_cycle`: a `none` return certifies that the
input dependency graph is acyclic. -/
theorem findCycle_none_acyclic (cs : List (String × List String))
    (h : findCycle (buildSorter cs) = none) : Acyclic cs := by
  unfold findCycle at h
  obtain ⟨_, hnone⟩ := findCycleGo_spec (succsOf (buildSorter cs))
    (keysOf (buildSorter cs)) (nodup_keysOf_buildSorter cs)
    (succs_closed_buildSorter cs) (dfsFuel (buildSorter cs))
    (dfsFuel_sufficient cs) (keysOf (buildSorter cs)) [] []
    (fun r hr => hr) (dfsInv_empty _ _)
  obtain ⟨seen', fin', inv', _, hcov⟩ := hnone h
  have hkeys_fin : ∀ x ∈ keysOf (buildSorter cs), x ∈ fin' := by
    intro x hx
    rcases (inv'.seen_iff x).mp (hcov x hx) with hf | hs
    · exact hf
    · cases hs
  have hedge : ∀ x y, DepEdge cs x y → fin'.indexOf x < fin'.indexOf y := by
    intro x y hxy
    have hy : y ∈ fin' := hkeys_fin y (depEdge_mem_keys cs x y hxy).2
    exact fin_edge_lt _ fin' inv'.fin_nodup inv'.fin_good x y hy
      (mem_succs_of_depEdge cs x y hxy)
  intro a htg
  have mono : ∀ b c, Relation.TransGen (DepEdge cs) b c →
      fin'.indexOf b < fin'.indexOf c := by
    intro b c htg
    induction htg with
    | single h => exact hedge _ _ h
    | tail _ h ih => exact lt_trans ih (hedge _ _ h)
  exact absurd (mono a a htg) (lt_irrefl _)

/-! ## Claims C1 and C3 -/

/-- Claim C1: for every acyclic input dependency graph (with
duplicate-free crate names, as a Cargo workspace guarantees), the
computed publish order succeeds and places each dependency strictly
before every crate that depends on it: for every edge `(A, B)` meaning
`A` depends on `B`, `B` appears at a strictly earlier index than `A`. -/
theorem c1_order_respects_dependencies (cs : List (String × List String))
    (hn : (cs.map Prod.fst).Nodup) (hac : Acyclic cs) :
    ∃ order, createPublishOrder cs = .ok order ∧
      ∀ a b, DepEdge cs a b →
        b ∈ order ∧ a ∈ order ∧ order.indexOf b < order.indexOf a := by
  rcases hfc : findCycle (buildSorter cs) with _ | c
  · obtain ⟨out, hrun, hnodup, hord, hcov, _⟩ := kahn_complete cs hn hac
    refine ⟨out, ?_, ?_⟩
    · unfold createPublishOrder staticOrder
      rw [hfc, hrun]
      rfl
    · intro a b hab
      have ha : a ∈ out := hcov a (depEdge_mem_keys cs a b hab).1
      have hb : b ∈ out := hcov b (depEdge_mem_keys cs a b hab).2
      refine ⟨hb, ha, ?_⟩
      have halt : out.indexOf a < out.length := List.indexOf_lt_length.mpr ha
      have hget : out.get ⟨out.indexOf a, halt⟩ = a := List.indexOf_get halt
      have hbd : b ∈ depsOf cs a := (mem_depsOf_iff_depEdge cs hn a b).mpr hab
      have htk := hord (out.indexOf a) halt b (by rw [hget]; exact hbd)
      exact indexOf_lt_of_mem_take out hnodup b _ htk
  · exfalso
    obtain ⟨a, htg⟩ := isDepCycle_transGen cs c (findCycle_some_isDepCycle cs c hfc)
    exact hac a htg

/-- The two-crate chain `b depends on a` is acyclic: its only edge is
`(b, a)`, so any closed transitive chain would force `b = a`. -/
theorem acyclic_pair : Acyclic [("a", []), ("b", ["a"])] := by
  have hchar : ∀ x y, DepEdge [("a", []), ("b", ["a"])] x y →
      x = "b" ∧ y = "a" := by
    rintro x y ⟨p, hp, h1, h2⟩
    rcases List.mem_cons.mp hp with rfl | hp
    · cases h2
    · rcases List.mem_cons.mp hp with rfl | hp
      · exact ⟨h1.symm, by simpa using h2⟩
      · cases hp
  have hends : ∀ b c, Relation.TransGen (DepEdge [("a", []), ("b", ["a"])]) b c →
      b = "b" ∧ c = "a" := by
    intro b c htg
    induction htg with
    | single h => exact hchar _ _ h
    | tail _ h ih => exact ⟨ih.1, (hchar _ _ h).2⟩
  intro a htg
  obtain ⟨h1, h2⟩ := hends a a htg
  exact absurd (h1.symm.trans h2) (by decide)

/-- Claim C1, witness: on the two-crate workspace where `b` depends on
`a`, the order `["a", "b"]` is produced and respects the edge. -/
theorem c1_order_respects_dependencies_witness :
    (∃ order, createPublishOrder [("a", []), ("b", ["a"])] = .ok order ∧
      ∀ a b, DepEdge [("a", []), ("b", ["a"])] a b →
        b ∈ order ∧ a ∈ order ∧ order.indexOf b < order.indexOf a) ∧
    createPublishOrder [("a", []), ("b", ["a"])] = .ok ["a", "b"] :=
  ⟨c1_order_respects_dependencies [("a", []), ("b", ["a"])] (by decide)
    acyclic_pair, rfl⟩

/-- Claim C3 (amended): on any input whose dependency graph is cyclic,
the run aborts with a `CycleError` raised inside the `Publisher`
constructor before any registry call is made — the event trace is empty —
and the error carries a detected dependency cycle path (closed, each
consecutive pair an edge of the input), not the set of all unresolved
node names; no partial order is ever returned. -/
theorem c3_cycle_error_aborts (versionArg : Option String)
    (workspaceVersion : String) (crates : List Crate) (cwd : String)
    (oracle : Oracle) (dryRun : Bool) (a : String)
    (hcyc : Relation.TransGen (DepEdge (graphOf crates)) a a) :
    ∃ c, runScript versionArg workspaceVersion crates cwd oracle dryRun =
        ([], .error (.cycleError c)) ∧ IsDepCycle (graphOf crates) c := by
  rcases hfc : findCycle (buildSorter (graphOf crates)) with _ | c
  · exact absurd hcyc (findCycle_none_acyclic _ hfc a)
  · refine ⟨c, ?_, findCycle_some_isDepCycle _ c hfc⟩
    have hcp : createPublishOrder (graphOf crates) = Except.error c := by
      unfold createPublishOrder staticOrder
      rw [hfc]
    have hcp' : createPublishOrder
        (crates.map (fun cr => (cr.name, cr.dependencies))) = Except.error c :=
      hcp
    have hmk : mkPublisher versionArg workspaceVersion crates cwd dryRun =
        Except.error c := by
      simp only [mkPublisher, hcp']
    unfold runScript
    rw [hmk]

/-- Claim C3, witness: on the two-crate cycle `A ↔ B` (live mode, a
registry that has published nothing), the run produces no event and fails
with the cycle path `["A", "B", "A"]`. -/
theorem c3_cycle_error_aborts_witness :
    (∃ c, runScript none "1.0.0"
        [⟨"A", ["B"], "1.0.0", "/ws/A"⟩, ⟨"B", ["A"], "1.0.0", "/ws/B"⟩]
        "/ws" ⟨fun _ => none, fun _ => true⟩ false =
        ([], .error (.cycleError c)) ∧
      IsDepCycle (graphOf
        [⟨"A", ["B"], "1.0.0", "/ws/A"⟩, ⟨"B", ["A"], "1.0.0", "/ws/B"⟩]) c) ∧
    runScript none "1.0.0"
        [⟨"A", ["B"], "1.0.0", "/ws/A"⟩, ⟨"B", ["A"], "1.0.0", "/ws/B"⟩]
        "/ws" ⟨fun _ => none, fun _ => true⟩ false =
      ([], .error (.cycleError ["A", "B", "A"])) :=
  ⟨c3_cycle_error_aborts none "1.0.0"
      [⟨"A", ["B"], "1.0.0", "/ws/A"⟩, ⟨"B", ["A"], "1.0.0", "/ws/B"⟩]
      "/ws" ⟨fun _ => none, fun _ => true⟩ false "A"
      (Relation.TransGen.head ⟨("A", ["B"]), by decide, rfl, by decide⟩
        (Relation.TransGen.single ⟨("B", ["A"]), by decide, rfl, by decide⟩)),
    rfl⟩

/-! ## Claim C2: emission order of ready nodes -/

/-- If the Kahn loop returns an order, that order begins with the ready
list it was started from (the first emitted group). -/
theorem kahnRun_prefix (succs : String → List String)
    (fuel : Nat) (np : String → Int) (ready out : List String)
    (h : kahnRun succs fuel np ready = some out) :
    ∃ rest, out = ready ++ rest := by
  cases fuel with
  | zero => cases h
  | succ fuel =>
    cases ready with
    | nil =>
      have h' : some ([] : List String) = some out := h
      injection h' with h'
      exact ⟨[], by simp [← h']⟩
    | cons r rs =>
      have h' : (kahnRun succs fuel (kahnStep succs (r :: rs) np).1
          (kahnStep succs (r :: rs) np).2).map (fun o => r :: rs ++ o) =
          some out := h
      rcases hrec : kahnRun succs fuel (kahnStep succs (r :: rs) np).1
          (kahnStep succs (r :: rs) np).2 with _ | o
      · rw [hrec] at h'
        simp at h'
      · rw [hrec] at h'
        simp only [Option.map_some', Option.some.injEq] at h'
        exact ⟨o, h'.symm⟩

/-- The initial ready list computed by `prepare` is the node list of the
dict (insertion order), filtered to the zero-predecessor nodes. -/
theorem readyInit_eq_filter_keys (l : N2I) (hnd : (keysOf l).Nodup) :
    readyInit l = (keysOf l).filter (fun k => npredOf l k == 0) := by
  unfold readyInit
  rw [show keysOf l = l.map Prod.fst from rfl, List.filter_map]
  apply congrArg (List.map Prod.fst)
  apply List.filter_congr
  intro p hp
  have hinf : infoOf l p.1 = p.2 :=
    infoOf_of_mem_nodup l hnd p.1 p.2 (by rcases p with ⟨a, b⟩; exact hp)
  show (p.2.npredecessors == 0) = (npredOf l p.1 == 0)
  unfold npredOf
  rw [hinf]

/-- Claim C2 (amended): the tie-break among simultaneously ready nodes is
not lexicographic.  Every computed order opens with the initially ready
nodes — the zero-predecessor nodes of the dict, in insertion order — and
later groups are emitted in the order the `done` loop brings predecessor
counts to zero, which follows neither names nor insertion order.
Concretely: the diamond added `A`, `B`, `C`, `D` yields `[A, B, C, D]`
(`B` before `C`), the same crates added `A`, `C`, `B`, `D` yield
`[A, C, B, D]`, and in `{U: [P1, P2], V: [P1], P1: [], P2: []}` the
second group comes out `[V, U]` although `U` was inserted first. -/
theorem c2_ready_emission_order :
    (∀ (cs : List (String × List String)), (cs.map Prod.fst).Nodup →
      ∀ order, createPublishOrder cs = .ok order →
      ∃ rest, order =
        (keysOf (buildSorter cs)).filter
          (fun k => npredOf (buildSorter cs) k == 0) ++ rest) ∧
    createPublishOrder [("A", []), ("B", ["A"]), ("C", ["A"]), ("D", ["B", "C"])] =
      .ok ["A", "B", "C", "D"] ∧
    createPublishOrder [("A", []), ("C", ["A"]), ("B", ["A"]), ("D", ["B", "C"])] =
      .ok ["A", "C", "B", "D"] ∧
    createPublishOrder [("U", ["P1", "P2"]), ("V", ["P1"]), ("P1", []), ("P2", [])] =
      .ok ["P1", "P2", "V", "U"] := by
  refine ⟨?_, rfl, rfl, rfl⟩
  intro cs hn order h
  rcases hfc : findCycle (buildSorter cs) with _ | c
  · have hac := findCycle_none_acyclic cs hfc
    obtain ⟨out, hrun, _, _, _, _⟩ := kahn_complete cs hn hac
    have horder : out = order := by
      unfold createPublishOrder staticOrder at h
      rw [hfc, hrun] at h
      simpa using h
    obtain ⟨rest, hrest⟩ := kahnRun_prefix (succsOf (buildSorter cs))
      ((buildSorter cs).length + 1) (npredOf (buildSorter cs))
      (readyInit (buildSorter cs)) out hrun
    refine ⟨rest, ?_⟩
    rw [← horder, hrest, readyInit_eq_filter_keys (buildSorter cs)
      (nodup_keysOf_buildSorter cs)]
  · exfalso
    unfold createPublishOrder staticOrder at h
    rw [hfc] at h
    simp at h

/-- Claim C2, witness: the initial-group rule at the two-crate input added
`b` then `a`: the computed order `["b", "a"]` begins with the
zero-predecessor nodes in insertion order, which evaluate to exactly
`["b", "a"]` — not the lexicographic `["a", "b"]`. -/
theorem c2_ready_emission_order_witness :
    (∃ rest, (["b", "a"] : List String) =
      (keysOf (buildSorter [("b", []), ("a", [])])).filter
        (fun k => npredOf (buildSorter [("b", []), ("a", [])]) k == 0) ++ rest) ∧
    (keysOf (buildSorter [("b", []), ("a", [])])).filter
        (fun k => npredOf (buildSorter [("b", []), ("a", [])]) k == 0) =
      ["b", "a"] :=
  ⟨c2_ready_emission_order.1 [("b", []), ("a", [])] (by decide) ["b", "a"] rfl,
    rfl⟩
